import Mathlib

/-!
Verification development for the rmsd-yaml YAML library.

The repository contains two generations of the same crate:

* an older generation (`RmsdPosition`, `RmsdError`, `CharsIter`,
  `to_scalar_string`, the coercions of `value.rs`), embedded below inside
  `namespace Rmsd`;
* the current event-parser generation (`YamlScanner`, `YamlParser`,
  `YamlEvent`, `compose.rs`), embedded at top level.

Rust strings are modelled as `List Char`; byte offsets are recovered through
`Char.utf8Size` where the source indexes by bytes.  Fallible Rust functions
become `Except`/`Option` values; `todo!()` panics become a distinguished
error; loops without a structurally decreasing argument take explicit fuel,
and exhausted fuel is a distinguished error as well, so a fueled run that
returns `ok` coincides with a real run of the source.
-/

set_option maxRecDepth 100000

/-- Decidable equality for `Except`, so concrete runs of the embedded
functions can be checked by `decide`. -/
instance {ε α : Type _} [DecidableEq ε] [DecidableEq α] :
    DecidableEq (Except ε α) := fun
  | .error a, .error b =>
    if h : a = b then isTrue (by rw [h])
    else isFalse (by intro he; cases he; exact h rfl)
  | .error _, .ok _ => isFalse (by intro h; cases h)
  | .ok _, .error _ => isFalse (by intro h; cases h)
  | .ok a, .ok b =>
    if h : a = b then isTrue (by rw [h])
    else isFalse (by intro he; cases he; exact h rfl)

/-- `position.rs` (`RmsdPosition`): 1-based line and column, with `(0, 0)` as
the `EOF` sentinel.  The parser generation names the same data
`YamlPosition`. -/
structure RmsdPosition where
  line : Nat
  column : Nat
deriving DecidableEq, Repr

/-- `RmsdPosition::EOF`. -/
def RmsdPosition.EOF : RmsdPosition := ⟨0, 0⟩

/-- `Default for RmsdPosition`: line 1 column 1. -/
def RmsdPosition.rustDefault : RmsdPosition := ⟨1, 1⟩

/-- `RmsdPosition::new`. -/
def RmsdPosition.new (line column : Nat) : RmsdPosition := ⟨line, column⟩

/-- `RmsdPosition::next_column`. -/
def RmsdPosition.next_column (p : RmsdPosition) : RmsdPosition :=
  ⟨p.line, p.column + 1⟩

/-- `RmsdPosition::next_line`. -/
def RmsdPosition.next_line (p : RmsdPosition) : RmsdPosition :=
  ⟨p.line + 1, 1⟩

/-- The parser generation's `YamlPosition` carries the same data with the same
operations. -/
abbrev YamlPosition := RmsdPosition

/-- `u64::MAX`, also `usize::MAX` on the 64-bit targets this crate builds
for. -/
def u64Max : Nat := 2 ^ 64 - 1

/-- `u32::MAX`. -/
def u32Max : Nat := 2 ^ 32 - 1

/-- Rust `char::to_digit` without the radix filter: the numeric value a
character would denote, `none` for non-alphanumeric characters. -/
def charToDigitRaw (c : Char) : Option Nat :=
  if '0' ≤ c ∧ c ≤ '9' then some (c.toNat - '0'.toNat)
  else if 'a' ≤ c ∧ c ≤ 'z' then some (c.toNat - 'a'.toNat + 10)
  else if 'A' ≤ c ∧ c ≤ 'Z' then some (c.toNat - 'A'.toNat + 10)
  else none

/-- Rust `char::to_digit(radix)`. -/
def charToDigit (c : Char) (radix : Nat) : Option Nat :=
  match charToDigitRaw c with
  | some d => if d < radix then some d else none
  | none => none

/-- Rust `char::is_ascii_digit`. -/
def isAsciiDigit (c : Char) : Bool := decide ('0' ≤ c ∧ c ≤ '9')

/-- Rust `char::is_ascii_hexdigit`. -/
def isAsciiHexdigit (c : Char) : Bool :=
  isAsciiDigit c || decide ('a' ≤ c ∧ c ≤ 'f') || decide ('A' ≤ c ∧ c ≤ 'F')

/-- Rust `char::is_digit(radix)`. -/
def isDigitRadix (c : Char) (radix : Nat) : Bool :=
  (charToDigit c radix).isSome

/-- Base-10 digits of `n`, least significant first; the first argument is
fuel making the recursion structural (`n` itself always suffices). -/
def natDigitsAux : Nat → Nat → List Nat
  | 0, _ => []
  | _ + 1, 0 => []
  | fuel + 1, n + 1 => ((n + 1) % 10) :: natDigitsAux fuel ((n + 1) / 10)

/-- Base-10 digits of `n`, least significant first. -/
def natDigits (n : Nat) : List Nat := natDigitsAux n n

/-- The decimal digit characters of `n`, most significant first — the text
Rust's `Display` impl prints for an unsigned integer. -/
def natChars (n : Nat) : List Char :=
  if n = 0 then ['0'] else ((natDigits n).reverse.map Nat.digitChar)

/-- Horner evaluation of a digit-character list in the given radix, used to
state what the integer parsers below compute. -/
def hornerVal (radix : Nat) (s : List Char) : Nat :=
  s.foldl (fun acc c => acc * radix + ((charToDigit c radix).getD 0)) 0

/-- Rust `u64::from_str_radix` (and `u64::from_str` at radix 10): an optional
leading `+`, then one or more digits of the radix; checked arithmetic fails on
overflow past `u64::MAX`.  Stepwise checked arithmetic on a digit string
overflows exactly when the full value exceeds the bound, because the partial
Horner values are monotone, so the overflow check is applied to the final
value. -/
def uintFromStrRadix (s : List Char) (radix bound : Nat) : Option Nat :=
  let s := if s.head? = some '+' then s.tail else s
  if s = [] then none
  else if s.all (fun c => (charToDigit c radix).isSome) then
    let v := hornerVal radix s
    if v ≤ bound then some v else none
  else none

/-- `u64::from_str_radix` / `u64::from_str`. -/
def u64FromStrRadix (s : List Char) (radix : Nat) : Option Nat :=
  uintFromStrRadix s radix u64Max

/-- `u32::from_str_radix`. -/
def u32FromStrRadix (s : List Char) (radix : Nat) : Option Nat :=
  uintFromStrRadix s radix u32Max

namespace Rmsd

/-- `error.rs` (`ErrorKind`): the closed error-kind enumeration of the older
generation. -/
inductive ErrorKind where
  | Bug
  | InvalidPosition
  | StartWithReservedIndicator
  | InvalidEscapeScalar
  | UnfinishedQuote
  | InvalidErrorType
  | UnexpectedYamlNodeType
  | InvalidBool
  | InvalidNumber
  | NumberOverflow
  | UnfinishedMapIndicator
  | UnfinishedSequenceIndicator
deriving DecidableEq, Repr

/-- `Default for ErrorKind` is `Bug`. -/
def ErrorKind.rustDefault : ErrorKind := .Bug

/-- `Display for ErrorKind`. -/
def ErrorKind.display : ErrorKind → List Char
  | .Bug => "bug".toList
  | .InvalidPosition => "invalid_position".toList
  | .StartWithReservedIndicator => "start_with_reserved_indicator".toList
  | .InvalidEscapeScalar => "invalid_escape_scalar".toList
  | .UnfinishedQuote => "unfinished_quote".toList
  | .InvalidErrorType => "invalid_error_type".toList
  | .UnexpectedYamlNodeType => "unexpected_yaml_node_type".toList
  | .InvalidBool => "invalid_bool".toList
  | .InvalidNumber => "invalid_number".toList
  | .NumberOverflow => "number_overflow".toList
  | .UnfinishedMapIndicator => "unfinished_map_indicator".toList
  | .UnfinishedSequenceIndicator => "unfinished_sequence_indicator".toList

/-- `TryFrom<&str> for ErrorKind`.  The failure payload (an
`InvalidErrorType` error) is never inspected by the caller, which applies
`unwrap_or_default`, so `Option` suffices. -/
def ErrorKind.tryFrom (value : List Char) : Option ErrorKind :=
  if value = "bug".toList then some .Bug
  else if value = "invalid_position".toList then some .InvalidPosition
  else if value = "start_with_reserved_indicator".toList then
    some .StartWithReservedIndicator
  else if value = "invalid_escape_scalar".toList then some .InvalidEscapeScalar
  else if value = "unfinished_quote".toList then some .UnfinishedQuote
  else if value = "invalid_error_type".toList then some .InvalidErrorType
  else if value = "unexpected_yaml_node_type".toList then
    some .UnexpectedYamlNodeType
  else if value = "invalid_bool".toList then some .InvalidBool
  else if value = "invalid_number".toList then some .InvalidNumber
  else if value = "number_overflow".toList then some .NumberOverflow
  else if value = "unfinished_map_indicator".toList then
    some .UnfinishedMapIndicator
  else if value = "unfinished_sequence_indicator".toList then
    some .UnfinishedSequenceIndicator
  else none

/-- `error.rs` (`RmsdError`): kind, message and a single position. -/
structure RmsdError where
  kind : ErrorKind
  msg : List Char
  pos : RmsdPosition
deriving DecidableEq, Repr

/-- `RmsdError::new`. -/
def RmsdError.new (kind : ErrorKind) (msg : List Char) (pos : RmsdPosition) :
    RmsdError :=
  ⟨kind, msg, pos⟩

/-- `Default for RmsdError`. -/
def RmsdError.rustDefault : RmsdError :=
  ⟨ErrorKind.rustDefault, [], RmsdPosition.rustDefault⟩

/-- `RmsdError::invalid_number`. -/
def RmsdError.invalid_number (input : List Char) (pos : RmsdPosition) :
    RmsdError :=
  ⟨.InvalidNumber, "Invalid number string `".toList ++ input ++ ['`'], pos⟩

/-- `RmsdError::number_overflow`. -/
def RmsdError.number_overflow (msg : List Char) (pos : RmsdPosition) :
    RmsdError :=
  ⟨.NumberOverflow, msg, pos⟩

mutual

/-- `value.rs` (`YamlValueData`) of the older generation: all scalars are
carried as character strings. -/
inductive YamlValueData where
  | Null
  | Scalar (s : List Char)
  | Sequence (l : List YamlValue)
  | Map (m : List (YamlValue × YamlValue))
  | Tag (t : YamlTag)

/-- `value.rs` (`YamlValue`): data plus start/end positions (`stop` models the
Rust field `end`, a Lean keyword). -/
inductive YamlValue where
  | mk (data : YamlValueData) (start stop : RmsdPosition)

/-- `value.rs` (`YamlTag`). -/
inductive YamlTag where
  | mk (name : List Char) (data : YamlValueData)

end

/-- Field accessor for `YamlValue.data`. -/
def YamlValue.data : YamlValue → YamlValueData
  | .mk d _ _ => d

/-- Field accessor for `YamlValue.start`. -/
def YamlValue.start : YamlValue → RmsdPosition
  | .mk _ s _ => s

/-- A placeholder for the derived `Debug`/`Display` rendering of a value,
used only inside error messages on branches no claim below inspects (every
theorem hypothesis pins the value to a `Scalar`). -/
def YamlValueData.displayApprox : YamlValueData → List Char
  | .Null => "Null".toList
  | .Scalar _ => "Scalar".toList
  | .Sequence _ => "Sequence".toList
  | .Map _ => "Map".toList
  | .Tag _ => "Tag".toList

/-- `RmsdError::unexpected_yaml_node_type`. -/
def RmsdError.unexpected_yaml_node_type (msg : List Char)
    (pos : RmsdPosition) : RmsdError :=
  ⟨.UnexpectedYamlNodeType, msg, pos⟩

/-- `value.rs` (`str_is_integer`). -/
def str_is_integer (s : List Char) : Bool :=
  if "0x".toList.isPrefixOf s || "0X".toList.isPrefixOf s then
    (s.drop 2).all isAsciiHexdigit
  else if "0o".toList.isPrefixOf s || "0O".toList.isPrefixOf s then
    (s.drop 2).all (isDigitRadix · 8)
  else if "0b".toList.isPrefixOf s || "0B".toList.isPrefixOf s then
    (s.drop 2).all (isDigitRadix · 2)
  else
    s.all isAsciiDigit

/-- `YamlValue::is_integer`. -/
def YamlValue.is_integer (v : YamlValue) : Bool :=
  match v.data with
  | .Scalar s => str_is_integer s
  | _ => false

/-- `YamlValue::as_u64` (`value.rs` lines 109-134): base detection on the
scalar text, then `u64::from_str_radix` / `u64::from_str`. -/
def YamlValue.as_u64 (v : YamlValue) : Except RmsdError Nat :=
  match v.data with
  | .Scalar s =>
    if "0x".toList.isPrefixOf s || "0X".toList.isPrefixOf s then
      match u64FromStrRadix (s.drop 2) 16 with
      | some n => .ok n
      | none => .error (RmsdError.invalid_number s v.start)
    else if "0o".toList.isPrefixOf s || "0O".toList.isPrefixOf s then
      match u64FromStrRadix (s.drop 2) 8 with
      | some n => .ok n
      | none => .error (RmsdError.invalid_number s v.start)
    else if "0b".toList.isPrefixOf s || "0B".toList.isPrefixOf s then
      match u64FromStrRadix (s.drop 2) 2 with
      | some n => .ok n
      | none => .error (RmsdError.invalid_number s v.start)
    else
      match u64FromStrRadix s 10 with
      | some n => .ok n
      | none => .error (RmsdError.invalid_number s v.start)
  | d =>
    .error (RmsdError.unexpected_yaml_node_type
      ("Expecting a number, but got ".toList ++ d.displayApprox) v.start)

/-- `YamlValue::as_u32`: narrow `as_u64` checking against `u32::MAX`. -/
def YamlValue.as_u32 (v : YamlValue) : Except RmsdError Nat := do
  let num ← v.as_u64
  if num > u32Max then
    .error (RmsdError.number_overflow
      ("Specified number ".toList ++ natChars num
        ++ " overflow u32::MAX ".toList ++ natChars u32Max) v.start)
  else
    pure num

/-- `char_iter.rs` (`CharsIter`): position of the last drained char, position
of the pending char, and the remaining characters. -/
structure CharsIter where
  pos : RmsdPosition
  next_pos : RmsdPosition
  rest : List Char
deriving DecidableEq, Repr

/-- `CharsIter::new`. -/
def CharsIter.new (value : List Char) : CharsIter :=
  ⟨RmsdPosition.EOF, RmsdPosition.rustDefault, value⟩

/-- Recursion core of `CharsIter::next`, structural on the remaining
characters. -/
def CharsIter.nextAux (pos next_pos : RmsdPosition) :
    List Char → Option Char × CharsIter
  | [] => (none, ⟨pos, next_pos, []⟩)
  | c :: r =>
    if c = '\r' then CharsIter.nextAux next_pos next_pos r
    else if c = '\n' then
      (some c, ⟨next_pos, next_pos.next_line, r⟩)
    else
      (some c, ⟨next_pos, next_pos.next_column, r⟩)

/-- `CharsIter::next` (`char_iter.rs` lines 24-39): a `\r` sets `pos` and then
recurses, so it is skipped without starting a new line. -/
def CharsIter.next (it : CharsIter) : Option Char × CharsIter :=
  CharsIter.nextAux it.pos it.next_pos it.rest

/-- `CharsIter::peek` (`char_iter.rs` lines 41-48).  The source loop peeks the
same unchanged iterator on every pass, so when the head character is `\r` it
never terminates; the embedding spends one unit of fuel per pass and returns
`none` on exhaustion, so `none` for every fuel means the source loops
forever. -/
def CharsIter.peekFuel : Nat → CharsIter → Option (Option Char)
  | 0, _ => none
  | fuel + 1, it =>
    match it.rest with
    | [] => some none
    | c :: _ => if c ≠ '\r' then some (some c) else CharsIter.peekFuel fuel it

/-- `scalar_str.rs`/`scalar_ser.rs` (`to_scalar_string`): double quote the
scalar unless `indent_count + length < max_width`. -/
def to_scalar_string (indent_count : Nat) (input : List Char)
    (max_width : Nat) : List Char :=
  if indent_count + input.length < max_width then input
  else '"' :: (input ++ ['"'])

end Rmsd

/-- `str::split_once(sep)`: split at the first occurrence of `sep`.  `acc`
holds the scanned-over piece in reverse. -/
def splitOnceGo (sep : List Char) (acc : List Char) :
    List Char → Option (List Char × List Char)
  | [] =>
    if sep.isPrefixOf ([] : List Char) then some (acc.reverse, []) else none
  | c :: r =>
    if sep.isPrefixOf (c :: r) then
      some (acc.reverse, (c :: r).drop sep.length)
    else
      splitOnceGo sep (c :: acc) r

/-- `str::split_once(sep)`. -/
def splitOnce (s sep : List Char) : Option (List Char × List Char) :=
  splitOnceGo sep [] s

/-- `Display for RmsdPosition`. -/
def RmsdPosition.display (p : RmsdPosition) : List Char :=
  if p = RmsdPosition.EOF then "EOF".toList
  else
    "line ".toList ++ natChars p.line ++ " column ".toList
      ++ natChars p.column

/-- `TryFrom<&str> for RmsdPosition`: expects `line <n> column <n>`.  The
error payload is never inspected (`unwrap_or_default` at the call site), so
`Option` suffices. -/
def RmsdPosition.tryFrom (value : List Char) : Option RmsdPosition :=
  let splited := (value.splitOn ' ').take 4
  if splited.length = 4 ∧ splited[0]? = some "line".toList
      ∧ splited[2]? = some "column".toList then do
    let line ← u64FromStrRadix (splited[1]?.getD []) 10
    let column ← u64FromStrRadix (splited[3]?.getD []) 10
    some ⟨line, column⟩
  else
    none

namespace Rmsd

/-- `Display for RmsdError` (`error.rs` lines 114-121): one single position,
rendered `line <l> column <c>`, followed by kind and message. -/
def RmsdError.display (e : RmsdError) : List Char :=
  e.pos.display ++ " kind: ".toList ++ e.kind.display ++ " error: ".toList
    ++ e.msg

/-- `serde::de::Error::custom for RmsdError` (`error.rs` lines 125-146): the
parser the external binding funnels stringified errors through. -/
def RmsdError.custom (msg : List Char) : RmsdError :=
  match splitOnce msg "error: ".toList with
  | some (pos_kind_str, msg_str) =>
    match splitOnce pos_kind_str "kind: ".toList with
    | some (pos_str, kind_str) =>
      { pos := (RmsdPosition.tryFrom pos_str).getD RmsdPosition.rustDefault
        msg := msg_str
        kind := (ErrorKind.tryFrom kind_str).getD ErrorKind.rustDefault }
    | none => { RmsdError.rustDefault with msg := msg }
  | none => { RmsdError.rustDefault with msg := msg }

end Rmsd

/-! ## String helpers shared by the parser generation

Rust `&str` values are `List Char`; where the source indexes by bytes the
byte widths are recovered with `Char.utf8Size`. -/

/-- Total UTF-8 byte length of a character list (`str::len`). -/
def utf8Len (l : List Char) : Nat := (l.map Char.utf8Size).sum

/-- Drop a byte span from the front (`&s[n..]`).  All call sites slice at
char boundaries (Rust would panic otherwise); on a misaligned boundary this
embedding drops the straddling character. -/
def byteDrop : List Char → Nat → List Char
  | l, 0 => l
  | [], _ => []
  | c :: r, n + 1 => byteDrop r (n + 1 - c.utf8Size)

/-- Take a byte span from the front (`&s[..n]`), same conventions as
`byteDrop`. -/
def byteTake : List Char → Nat → List Char
  | _, 0 => []
  | [], _ => []
  | c :: r, n + 1 => c :: byteTake r (n + 1 - c.utf8Size)

/-- `str::find(sub)`: byte offset of the first occurrence. -/
def findSub : List Char → List Char → Option Nat
  | l, sub =>
    if sub.isPrefixOf l then some 0
    else
      match l with
      | [] => none
      | c :: r => (findSub r sub).map (· + c.utf8Size)

/-- `str::contains(sub)`. -/
def containsSub (l sub : List Char) : Bool := (findSub l sub).isSome

/-- `str::find` for a character class (`line.find(['[', ...])`): byte offset
of the first member. -/
def findCharIn : List Char → List Char → Option Nat
  | [], _ => none
  | c :: r, set =>
    if set.contains c then some 0 else (findCharIn r set).map (· + c.utf8Size)

/-- `str::trim_start_matches(' ')`. -/
def trimStartSpaces (l : List Char) : List Char := l.dropWhile (· = ' ')

/-- `str::trim_end_matches(p)` for a character class. -/
def trimEndMatches (set : List Char) (l : List Char) : List Char :=
  (l.reverse.dropWhile (set.contains ·)).reverse

/-- `str::trim_matches(p)` for a character class (both ends). -/
def trimMatches (set : List Char) (l : List Char) : List Char :=
  trimEndMatches set (l.dropWhile (set.contains ·))

/-- Number of leading spaces (`line.chars().take_while(|c| c == ' ').count()`). -/
def countLeadingSpaces (l : List Char) : Nat := (l.takeWhile (· = ' ')).length

/-- `str::split` on a character class, keeping empty segments, like Rust's
`split(['\n', '\r'])`.  `cur` holds the current segment reversed. -/
def splitAnyAux (set : List Char) (cur : List Char) :
    List Char → List (List Char)
  | [] => [cur.reverse]
  | c :: r =>
    if set.contains c then cur.reverse :: splitAnyAux set [] r
    else splitAnyAux set (c :: cur) r

/-- `str::split` on a character class. -/
def splitAny (set : List Char) (l : List Char) : List (List Char) :=
  splitAnyAux set [] l

/-! ## Parser generation: events, states, errors -/

/-- `event.rs` (`YamlEvent`).  `stop` models the Rust field `end`. -/
inductive YamlEvent where
  | StreamStart
  | StreamEnd
  | DocumentStart (explicit : Bool) (pos : YamlPosition)
  | DocumentEnd (explicit : Bool) (pos : YamlPosition)
  | SequenceStart (tag : Option (List Char)) (pos : YamlPosition)
  | SequenceEnd (pos : YamlPosition)
  | MapStart (tag : Option (List Char)) (pos : YamlPosition)
  | MapEnd (pos : YamlPosition)
  | Scalar (tag : Option (List Char)) (text : List Char)
      (start stop : YamlPosition)
deriving DecidableEq, Repr

/-- Modelled from the spec: the parser generation's `YamlState` is absent
from `src/` (the `state.rs` present belongs to an older generation and lacks
the helpers `parser.rs`/`sequence.rs`/`map.rs` call).  Spec §4.4 lists the
states; `InBlockSequnce` keeps the spelling the parser sources use. -/
inductive YamlState where
  | InBlockMapKey
  | InBlockMapValue
  | InBlockSequnce
  | InFlowMapKey
  | InFlowMapValue
  | InFlowSequnce
  | EndOfFile
deriving DecidableEq, Repr

/-- Modelled from the spec: `is_flow`. -/
def YamlState.is_flow : YamlState → Bool
  | .InFlowMapKey | .InFlowMapValue | .InFlowSequnce => true
  | _ => false

/-- Modelled from the spec: `is_block_seq`. -/
def YamlState.is_block_seq : YamlState → Bool
  | .InBlockSequnce => true
  | _ => false

/-- Modelled from the spec: `is_block_map_key`. -/
def YamlState.is_block_map_key : YamlState → Bool
  | .InBlockMapKey => true
  | _ => false

/-- Modelled from the spec: `is_block_map_value`. -/
def YamlState.is_block_map_value : YamlState → Bool
  | .InBlockMapValue => true
  | _ => false

/-- Modelled from the spec: `is_container` — in a map or a sequence. -/
def YamlState.is_container : YamlState → Bool
  | .InBlockMapKey | .InBlockMapValue | .InBlockSequnce
  | .InFlowMapKey | .InFlowMapValue | .InFlowSequnce => true
  | .EndOfFile => false

/-- Modelled from the spec (§4.8): the parser generation's error-kind
enumeration is absent from `src/`; the spec lists this closed set.
`InvalidSequnceStartIndicator` keeps the spelling `sequence.rs` uses for the
spec's `InvalidSequenceStartIndicator`. -/
inductive YamlErrorKind where
  | Bug
  | InvalidPosition
  | StartWithReservedIndicator
  | InvalidEscapeScalar
  | UnfinishedQuote
  | InvalidErrorType
  | UnexpectedYamlNodeType
  | InvalidBool
  | InvalidNumber
  | NumberOverflow
  | UnfinishedMapIndicator
  | UnfinishedSequnceIndicator
  | IndentTooSmall
  | InvalidStartOfToken
  | ExpectingCommentOrLineBreak
  | InvalidPlainScalarStart
  | AmbiguityPlainScalar
  | InvalidImplicitKey
  | InvalidSequnceStartIndicator
  | LessIndentedWithoutParent
  | NoSupportMultipleDocuments
deriving DecidableEq, Repr

/-- Failure values of the embedded parser/composer.  `err` models
`YamlError::new(kind, msg, start, end)` minus the free-form message, which no
claim inspects (spec §4.8: an error carries kind, message and a start/end
position pair).  `panicTodo` models a Rust `todo!()` panic.  `outOfFuel` is
exhaustion of the embedding's fuel, not a behaviour of the source: a fueled
run that returns `ok` or `err` coincides with the source's run. -/
inductive ParseErr where
  | err (kind : YamlErrorKind) (start stop : YamlPosition)
  | panicTodo
  | outOfFuel
deriving DecidableEq, Repr

/-! ## Parser generation: the scanner (`scanner.rs`) -/

/-- `scanner.rs` (`YamlScanner`): the unconsumed characters plus the two
positions.  The `CharIndices` byte offset is recovered from `rest` where
needed. -/
structure YamlScanner where
  rest : List Char
  next_pos : YamlPosition
  done_pos : YamlPosition
deriving DecidableEq, Repr

namespace YamlScanner

/-- `YamlScanner::new`. -/
def new (input : List Char) : YamlScanner :=
  { rest := input
    next_pos := if input = [] then RmsdPosition.EOF else ⟨1, 1⟩
    done_pos := if input = [] then RmsdPosition.EOF else ⟨1, 0⟩ }

/-- `YamlScanner::is_empty`. -/
def is_empty (s : YamlScanner) : Bool := s.rest.isEmpty

/-- `YamlScanner::peek_char`. -/
def peek_char (s : YamlScanner) : Option Char := s.rest.head?

/-- `YamlScanner::peek_till_linebreak_or_space`. -/
def peek_till_linebreak_or_space (s : YamlScanner) : List Char :=
  s.rest.takeWhile (fun c => ¬(c = '\r' ∨ c = '\n' ∨ c = ' '))

/-- `YamlScanner::peek_till_linebreak`. -/
def peek_till_linebreak (s : YamlScanner) : List Char :=
  s.rest.takeWhile (fun c => ¬(c = '\r' ∨ c = '\n'))

/-- `YamlScanner::peek_line`: `None` on empty input, else the text before the
first line break. -/
def peek_line (s : YamlScanner) : Option (List Char) :=
  if s.rest = [] then none else some s.peek_till_linebreak

/-- `YamlScanner::next_char` with its position bookkeeping. -/
def next_char (s : YamlScanner) : Option Char × YamlScanner :=
  match s.rest with
  | [] => (none, s)
  | c :: r =>
    if c = '\n' ∨ (c = '\r' ∧ r.head? ≠ some '\n') then
      (some c, ⟨r, s.next_pos.next_line, s.next_pos⟩)
    else if r ≠ [] then
      (some c, ⟨r, s.next_pos.next_column, s.next_pos⟩)
    else
      (some c, ⟨r, s.next_pos, s.next_pos⟩)

/-- `YamlScanner::advance(count)` — advance by characters. -/
def advance (s : YamlScanner) : Nat → YamlScanner
  | 0 => s
  | n + 1 => (s.next_char).2.advance n

/-- `YamlScanner::advance_till_linebreak`. -/
def advance_till_linebreak (s : YamlScanner) : YamlScanner :=
  ((s.advance s.peek_till_linebreak.length).next_char).2

/-- `YamlScanner::advance_till_linebreak_or_space`. -/
def advance_till_linebreak_or_space (s : YamlScanner) : YamlScanner :=
  ((s.advance s.peek_till_linebreak_or_space.length).next_char).2

/-- `YamlScanner::next_line`. -/
def next_line (s : YamlScanner) : Option (List Char) × YamlScanner :=
  (s.peek_line, s.advance_till_linebreak)

/-- Loop of `YamlScanner::advance_offset`: advance whole characters while
fewer than `need` bytes have been consumed.  The fuel makes the recursion
structural; `need` bytes is always enough because every step consumes at
least one byte (the source loop can only stall on an exhausted iterator,
which the caller's guard rules out). -/
def advanceOffsetGo : Nat → YamlScanner → Nat → YamlScanner
  | 0, s, _ => s
  | fuel + 1, s, need =>
    if need = 0 then s
    else
      match s.rest.head? with
      | none => s
      | some c => advanceOffsetGo fuel (s.next_char).2 (need - c.utf8Size)

/-- `YamlScanner::advance_offset(offset)` — advance by bytes; does nothing
unless strictly more than `offset` bytes remain. -/
def advance_offset (s : YamlScanner) (offset : Nat) : YamlScanner :=
  if utf8Len s.rest > offset then advanceOffsetGo offset s offset else s

/-- `YamlScanner::advance_till_non_space`. -/
def advance_till_non_space (s : YamlScanner) : YamlScanner :=
  s.advance (s.rest.takeWhile (· = ' ')).length

/-- `YamlScanner::advance_if_starts_with(prefix)`. -/
def advance_if_starts_with (s : YamlScanner) (p : List Char) :
    Bool × YamlScanner :=
  if p.isPrefixOf s.rest then (true, s.advance p.length) else (false, s)

/-- `YamlScanner::count_block_identation` (sic): leading spaces of the first
non-all-space line, else the longest all-space line. -/
def countBlockIndentGo : List (List Char) → Nat → Nat
  | [], max_indent => max_indent
  | line :: rest, max_indent =>
    if line.all (· = ' ') then
      countBlockIndentGo rest (max max_indent line.length)
    else
      countLeadingSpaces line

/-- `YamlScanner::count_block_identation`. -/
def count_block_identation (s : YamlScanner) : Nat :=
  countBlockIndentGo (splitAny ['\n', '\r'] s.rest) 0

/-- Loop of `YamlScanner::expect_comment_or_line_break`; fuel
`rest.length + 1` is always enough because every pass consumes at least one
character. -/
def expectCLBGo : Nat → YamlScanner → Except ParseErr YamlScanner
  | 0, _ => .error .outOfFuel
  | fuel + 1, s =>
    match s.next_char with
    | (none, s') => .ok s'
    | (some c, s') =>
      if c = '\r' ∨ c = '\n' then .ok s'
      else if c = '#' then expectCLBGo fuel s'.advance_till_linebreak
      else if c = ' ' then expectCLBGo fuel s'
      else
        .error (.err .ExpectingCommentOrLineBreak s'.done_pos s'.done_pos)

/-- `YamlScanner::expect_comment_or_line_break`. -/
def expect_comment_or_line_break (s : YamlScanner) :
    Except ParseErr YamlScanner :=
  expectCLBGo (s.rest.length + 1) s

end YamlScanner

/-! ## Parser generation: parser state and the scalar handlers (`parser.rs`,
`scalar.rs`) -/

/-- `parser.rs` (`YamlParser`): scanner, state stack, event buffer. -/
structure YamlParser where
  scanner : YamlScanner
  states : List YamlState
  events : List YamlEvent
deriving DecidableEq, Repr

namespace YamlParser

/-- `YamlParser::cur_state`: top of the state stack, `EndOfFile` when
empty. -/
def cur_state (p : YamlParser) : YamlState :=
  (p.states.getLast?).getD .EndOfFile

/-- `YamlParser::push_event`. -/
def push_event (p : YamlParser) (e : YamlEvent) : YamlParser :=
  { p with events := p.events ++ [e] }

/-- `YamlParser::push_state`. -/
def push_state (p : YamlParser) (st : YamlState) : YamlParser :=
  { p with states := p.states ++ [st] }

/-- `YamlParser::pop_state`. -/
def pop_state (p : YamlParser) : YamlParser :=
  { p with states := p.states.dropLast }

end YamlParser

/-- Modelled from the spec: `YamlParser::handle_tag` of the parser generation
is absent from `src/` (the `tag.rs` present belongs to an older generation
with a different signature).  Spec §4.3(g): a `!…` token collects until
whitespace or newline; a bare `!` is the non-specific tag and is silently
absorbed; §6: local tag names are kept verbatim (sans the `!`). -/
def handleTag (s : YamlScanner) : Option (List Char) × YamlScanner :=
  let tok := s.peek_till_linebreak_or_space
  let s' := s.advance_till_linebreak_or_space
  if tok = ['!'] then (none, s') else (some (tok.drop 1), s')

/-- Collect up to `n` characters (`for _ in 0..expected_count`), stopping
early at end of input. -/
def nextChars : Nat → YamlScanner → List Char × YamlScanner
  | 0, s => ([], s)
  | n + 1, s =>
    match s.next_char with
    | (none, s') => ([], s')
    | (some c, s') =>
      let (l, s'') := nextChars n s'
      (c :: l, s'')

/-- `YamlParser::read_escaped_char` (`scalar.rs` lines 594-683). -/
def readEscapedChar (s : YamlScanner) : Except ParseErr (Char × YamlScanner) :=
  match s.next_char with
  | (none, s') => .error (.err .InvalidEscapeScalar s'.done_pos s'.done_pos)
  | (some c, s') =>
    let start_pos := s'.done_pos
    if c = '0' then .ok ('\x00', s')
    else if c = '7' then .ok ('\x07', s')
    else if c = '8' then .ok ('\x08', s')
    else if c = '9' ∨ c = 't' then .ok ('\t', s')
    else if c = 'n' then .ok ('\n', s')
    else if c = 'v' then .ok ('\x0b', s')
    else if c = 'f' then .ok ('\x0c', s')
    else if c = 'r' then .ok ('\x0d', s')
    else if c = 'e' then .ok ('\x1b', s')
    else if c = '/' then .ok ('/', s')
    else if c = '\\' then .ok ('\\', s')
    else if c = 'N' then .ok ('\u0085', s')
    else if c = '_' then .ok (' ', s')
    else if c = 'L' then .ok (' ', s')
    else if c = 'P' then .ok (' ', s')
    else if c = 'x' ∨ c = 'u' ∨ c = 'U' then
      let expected_count : Nat := if c = 'x' then 2 else if c = 'u' then 4 else 8
      let (val, s'') := nextChars expected_count s'
      if val.length = expected_count then
        match u32FromStrRadix val 16 with
        | none =>
          .error (.err .InvalidEscapeScalar start_pos s''.done_pos)
        | some v =>
          if h : v.isValidChar then .ok (Char.ofNatAux v h, s'')
          else .error (.err .InvalidEscapeScalar start_pos s''.done_pos)
      else
        .error (.err .InvalidEscapeScalar start_pos s''.done_pos)
    else
      .error (.err .InvalidEscapeScalar start_pos s'.done_pos)

/-- `scalar.rs` (`line_folding`, lines 478-511), with the
`first_line_break_trimmed` flag threaded through the recursion. -/
def lineFoldingGo (flag : Bool) : List (List Char) → List Char
  | [] => []
  | line :: rest =>
    let trimmed := trimMatches [' ', '\t'] line
    let next_line_is_empty : Option Bool :=
      match rest with
      | [] => none
      | next :: _ => some ((trimMatches [' ', '\t'] next).isEmpty)
    if trimmed.isEmpty then
      (if flag then ['\n'] else []) ++ lineFoldingGo flag rest
    else
      trimmed ++
        match next_line_is_empty with
        | some true => lineFoldingGo true rest
        | some false => ' ' :: lineFoldingGo false rest
        | none => lineFoldingGo false rest

/-- `scalar.rs` (`line_folding`). -/
def line_folding (string_to_fold : List (List Char)) : List Char :=
  lineFoldingGo false string_to_fold

/-- `scalar.rs` (`flow_folding`, lines 539-551): wrap in the ASCII quotes,
fold the `\n`-split lines, strip the wrapping quotes again (`ret[1..len-1]`;
both end characters are the one-byte quotes just added, so char-level
`drop`/`dropLast` is the byte slice the source takes). -/
def flow_folding (string_to_fold : List Char) : List Char :=
  let wrapped := '"' :: (string_to_fold ++ ['"'])
  let ret := line_folding (splitAny ['\n'] wrapped)
  (ret.drop 1).dropLast

/-- `ChompingMethod` (`scalar.rs` lines 5-11). -/
inductive ChompingMethod where
  | Strip
  | Clip
  | Keep
deriving DecidableEq, Repr

/-- `Default for ChompingMethod` is `Clip`. -/
def ChompingMethod.rustDefault : ChompingMethod := .Clip

/-- `YamlParser::validate_plain_scalar` (`scalar.rs` lines 395-468).  On
success nothing changes; on failure the returned error carries the positions
the source computes after its error-path `advance_offset` calls. -/
def validatePlainScalar (p : YamlParser) (line : List Char) :
    Except ParseErr Unit :=
  let s := p.scanner
  let headCheck : Except ParseErr Unit :=
    match (trimStartSpaces line).head? with
    | none => .ok ()
    | some first_char =>
      if first_char ∈ [',', '[', ']', '{', '}', '#', '&', '*', '!', '|',
          '>', '\'', '"', '%', '@', '`'] then
        .error (.err .InvalidPlainScalarStart s.next_pos s.next_pos)
      else if first_char ∈ [':', '?', '-'] ∧ s.rest[1]? = some ' ' then
        .error (.err .InvalidPlainScalarStart s.next_pos s.next_pos)
      else .ok ()
  match headCheck with
  | .error e => .error e
  | .ok _ =>
    match findSub line " #".toList with
    | some offset =>
      .error (.err .AmbiguityPlainScalar s.done_pos
        ((s.advance_offset offset).done_pos))
    | none =>
      if p.cur_state.is_flow ∨ p.cur_state.is_block_map_key then
        match findCharIn line ['[', ']', '{', '}'] with
        | some offset =>
          .error (.err .AmbiguityPlainScalar s.done_pos
            ((s.advance_offset offset).done_pos))
        | none => .ok ()
      else .ok ()

/-- Exit path of `handle_plain_scalar` (`scalar.rs` lines 385-392): fold the
collected lines, adjust the end column for single-line scalars, push the
scalar event.  The `- 1` is the source's `usize` subtraction. -/
def plainFinish (p : YamlParser) (tag : Option (List Char))
    (startPos : YamlPosition) (acc : List (List Char)) : YamlParser :=
  let str_val := line_folding acc
  let e := p.scanner.done_pos
  let end_pos :=
    if ¬str_val.contains '\n' ∧ e.line = startPos.line then
      { e with column := startPos.column + str_val.length - 1 }
    else e
  p.push_event (.Scalar tag str_val startPos end_pos)

/-- Loop of `YamlParser::handle_plain_scalar` (`scalar.rs` lines 269-384).
Fuel `rest.length + 1` is always enough: every pass that does not exit
consumes at least one character. -/
def handlePlainGo :
    Nat → YamlParser → Nat → Nat → Option (List Char) → YamlPosition →
    List (List Char) → Bool → Except ParseErr YamlParser
  | 0, _, _, _, _, _, _, _ => .error .outOfFuel
  | fuel + 1, p, firstIndent, restIndent, tag, startPos, acc, isFirst =>
    match p.scanner.peek_line with
    | none => .ok (plainFinish p tag startPos acc)
    | some line =>
      let pre_pos := p.scanner.done_pos
      let cur_indent := countLeadingSpaces line
      let expected := if isFirst then firstIndent else restIndent
      if cur_indent < expected then .ok (plainFinish p tag startPos acc)
      else
        let startPos :=
          if isFirst then { startPos with column := startPos.column + cur_indent }
          else startPos
        let isFirst := false
        if line = "...".toList then .ok (plainFinish p tag startPos acc)
        else
          let trimmed := trimStartSpaces line
          if p.cur_state.is_block_seq ∧ "- ".toList.isPrefixOf trimmed then
            .ok (plainFinish p tag startPos acc)
          else if ¬p.cur_state.is_block_map_key
              ∧ containsSub line ": ".toList then
            .ok (plainFinish p tag startPos acc)
          else
            let tp :=
              if "!".toList.isPrefixOf trimmed then
                let ts := handleTag p.scanner
                (ts.1, { p with scanner := ts.2 })
              else (tag, p)
            let tag := tp.1
            let p := tp.2
            match p.scanner.peek_line with
            | none =>
              handlePlainGo fuel p firstIndent restIndent tag startPos acc
                isFirst
            | some line =>
              let trimmed := trimStartSpaces line
              match validatePlainScalar p line with
              | .error e => .error e
              | .ok _ =>
                if p.cur_state.is_block_map_key then
                  match findSub line ": ".toList with
                  | some offset =>
                    let s' := p.scanner.advance_offset offset
                    .ok (({ p with scanner := s' }).push_event
                      (.Scalar tag
                        (byteTake (byteDrop line expected) (offset - expected))
                        startPos s'.done_pos))
                  | none =>
                    match
                      if line.getLast? = some ':' then findSub line [':']
                      else none with
                    | some offset =>
                      let s' := p.scanner.advance_offset offset
                      let p := { p with scanner := s' }
                      if line = [':'] then
                        .ok (p.push_event (.Scalar tag [] startPos s'.done_pos))
                      else
                        .ok (p.push_event
                          (.Scalar tag
                            (byteTake (byteDrop line expected)
                              (utf8Len line - 1 - expected))
                            startPos s'.done_pos))
                    | none =>
                      if trimmed.isEmpty then
                        handlePlainGo fuel
                          { p with scanner := (p.scanner.next_line).2 }
                          firstIndent restIndent tag startPos acc isFirst
                      else
                        let s' := p.scanner.advance_till_linebreak
                        .error (.err .InvalidImplicitKey pre_pos s'.done_pos)
                else
                  let s' := (p.scanner.next_line).2
                  let acc := acc ++ [trimMatches [' ', '\t'] line]
                  if s'.done_pos = pre_pos then
                    .error (.err .Bug pre_pos pre_pos)
                  else
                    handlePlainGo fuel { p with scanner := s' } firstIndent
                      restIndent tag startPos acc isFirst

/-- `YamlParser::handle_plain_scalar`. -/
def handlePlainScalar (p : YamlParser) (first_indent rest_indent : Nat)
    (tag : Option (List Char)) : Except ParseErr YamlParser :=
  handlePlainGo (p.scanner.rest.length + 1) p first_indent rest_indent tag
    p.scanner.next_pos [] true

/-- `ChompingMethod` application (`scalar.rs` lines 183-197): `Strip` trims
all trailing line breaks, `Clip` trims then restores exactly one, `Keep`
leaves the text unchanged. -/
def chompApply : ChompingMethod → List Char → List Char
  | .Strip, ret => trimEndMatches ['\n', '\r'] ret
  | .Clip, ret => trimEndMatches ['\n', '\r'] ret ++ ['\n']
  | .Keep, ret => ret

/-- Content loop of `handle_literal_block_scalar` (`scalar.rs` lines
143-180).  Fuel `rest.length + 1` is always enough: every pass that does not
exit consumes at least one character. -/
def handleLiteralGo :
    Nat → YamlParser → Nat → List Char →
    Except ParseErr (List Char × YamlParser)
  | 0, _, _, _ => .error .outOfFuel
  | fuel + 1, p, desired, ret =>
    match p.scanner.peek_line with
    | none => .ok (ret, p)
    | some line =>
      let pre_pos := p.scanner.done_pos
      let leading := countLeadingSpaces line
      if leading < desired then
        if (trimStartSpaces line).isEmpty then
          handleLiteralGo fuel { p with scanner := (p.scanner.next_line).2 }
            desired (ret ++ ['\n'])
        else .ok (ret, p)
      else if p.cur_state.is_block_map_value
          ∧ containsSub line ": ".toList then
        .ok (ret, p)
      else
        match p.scanner.next_line with
        | (some l, s') =>
          let ret := ret ++ byteDrop l desired ++ ['\n']
          if s'.done_pos = pre_pos then .error (.err .Bug pre_pos pre_pos)
          else handleLiteralGo fuel { p with scanner := s' } desired ret
        | (none, s') => .ok (ret, { p with scanner := s' })

/-- Header parse of `handle_literal_block_scalar` (`scalar.rs` lines 87-130):
returns the indentation indicator, the chomping method and the advanced
scanner.  The source's `'1'..'9'` is an exclusive range pattern, so `'9'`
falls through to the default arm; and the source assigns `Strip` to `+` and
`Keep` to `-`. -/
def literalHeader (s : YamlScanner) (next_char : Char) :
    Option Nat × ChompingMethod × YamlScanner :=
  if '1' ≤ next_char ∧ next_char < '9' then
    let s := (s.next_char).2
    let ind := some (next_char.toNat - '0'.toNat)
    let plus := s.advance_if_starts_with "+".toList
    if plus.1 then (ind, .Strip, plus.2)
    else
      let minus := plus.2.advance_if_starts_with "-".toList
      if minus.1 then (ind, .Keep, minus.2)
      else (ind, ChompingMethod.rustDefault, minus.2)
  else if next_char = '+' then
    let s := (s.next_char).2
    match s.peek_char with
    | some c =>
      match charToDigit c 10 with
      | some d => (some d, .Strip, (s.next_char).2)
      | none => (none, .Strip, s)
    | none => (none, .Strip, s)
  else if next_char = '-' then
    let s := (s.next_char).2
    match s.peek_char with
    | some c =>
      match charToDigit c 10 with
      | some d => (some d, .Keep, (s.next_char).2)
      | none => (none, .Keep, s)
    | none => (none, .Keep, s)
  else (none, ChompingMethod.rustDefault, s)

/-- `YamlParser::handle_literal_block_scalar` (`scalar.rs` lines 71-203). -/
def handleLiteralBlockScalar (p : YamlParser) (first_indent rest_indent : Nat)
    (tag : Option (List Char)) : Except ParseErr YamlParser :=
  let start_pos0 := p.scanner.next_pos
  match p.scanner.peek_char with
  | none =>
    let ret := chompApply ChompingMethod.rustDefault []
    .ok (p.push_event (.Scalar tag ret start_pos0 p.scanner.done_pos))
  | some next_char =>
    let h := literalHeader p.scanner next_char
    let indicator := h.1
    let chomping := h.2.1
    match (h.2.2).expect_comment_or_line_break with
    | .error e => .error e
    | .ok s =>
      let leading := s.count_block_identation
      let desired :=
        match indicator with
        | some d => d + rest_indent
        | none => leading
      let start_pos := { s.next_pos with column := s.next_pos.column + desired }
      match handleLiteralGo (s.rest.length + 1) { p with scanner := s }
          desired [] with
      | .error e => .error e
      | .ok (ret, p') =>
        let ret := chompApply chomping ret
        .ok (p'.push_event (.Scalar tag ret start_pos p'.scanner.done_pos))

/-- Loop of `handle_double_quoted_flow_scalar` (`scalar.rs` lines 232-245).
Fuel `rest.length + 1` is always enough: every pass consumes a character. -/
def handleDQGo :
    Nat → YamlScanner → List Char → Bool → YamlPosition →
    Except ParseErr (List Char × YamlPosition × YamlScanner)
  | 0, _, _, _, _ => .error .outOfFuel
  | fuel + 1, s, ret, firstFound, startPos =>
    match s.next_char with
    | (none, s') => .ok (ret, startPos, s')
    | (some c, s') =>
      if c = '"' then
        if firstFound then .ok (ret, startPos, s')
        else handleDQGo fuel s' ret true s'.done_pos
      else if c = '\\' then
        match readEscapedChar s' with
        | .error e => .error e
        | .ok (ec, s'') =>
          handleDQGo fuel s'' (ret ++ [ec]) firstFound startPos
      else handleDQGo fuel s' (ret ++ [c]) firstFound startPos

/-- `YamlParser::handle_double_quoted_flow_scalar`. -/
def handleDoubleQuotedFlowScalar (p : YamlParser) (tag : Option (List Char)) :
    Except ParseErr YamlParser :=
  match handleDQGo (p.scanner.rest.length + 1) p.scanner [] false
      p.scanner.next_pos with
  | .error e => .error e
  | .ok (ret, startPos, s') =>
    .ok (({ p with scanner := s' }).push_event
      (.Scalar tag (flow_folding ret) startPos s'.done_pos))

/-- `YamlParser::handle_scalar` (`scalar.rs` lines 15-65): dispatch on the
first non-space character.  `handle_folded_block_scalar` and
`handle_single_quoted_flow_scalar` are `todo!()` in the source and panic. -/
def handleScalar (p : YamlParser) (first_indent rest_indent : Nat)
    (tag : Option (List Char)) : Except ParseErr YamlParser :=
  match p.scanner.peek_line with
  | none => .ok p
  | some line =>
    match (trimStartSpaces line).head? with
    | none => .ok p
    | some next_char =>
      if line = "...".toList then .ok p
      else if next_char = '|' then
        let s := ((p.scanner.advance_till_non_space).next_char).2
        handleLiteralBlockScalar { p with scanner := s } first_indent
          rest_indent tag
      else if next_char = '>' then .error .panicTodo
      else if next_char = '\'' then .error .panicTodo
      else if next_char = '"' then
        let s := p.scanner.advance_till_non_space
        handleDoubleQuotedFlowScalar { p with scanner := s } tag
      else
        handlePlainScalar p first_indent rest_indent tag

/-- `YamlParser::handle_flow_seq` (`sequence.rs` lines 114-119): the body is
`todo!()`, so any call panics. -/
def handleFlowSeq (_p : YamlParser) (_tag : Option (List Char)) :
    Except ParseErr YamlParser :=
  .error .panicTodo

/-- `YamlParser::handle_flow_map` (`map.rs` lines 254-259): the body is
`todo!()`, so any call panics. -/
def handleFlowMap (_p : YamlParser) (_tag : Option (List Char)) :
    Except ParseErr YamlParser :=
  .error .panicTodo

/-- Comment/blank-line skipping head of `handle_node` (`parser.rs` lines
144-155).  Fuel `rest.length + 1` is always enough: every skipped line
consumes at least one character. -/
def skipIgnoredGo : Nat → YamlScanner → Nat → YamlScanner
  | 0, s, _ => s
  | fuel + 1, s, first_indent =>
    match s.peek_line with
    | none => s
    | some line =>
      let trimmed := trimStartSpaces line
      let indent_count := countLeadingSpaces line
      if (trimmed.isEmpty ∧ indent_count ≤ first_indent)
          ∨ "# ".toList.isPrefixOf trimmed then
        skipIgnoredGo fuel s.advance_till_linebreak first_indent
      else s

/-- Comment/blank-line skipping head of `handle_node`. -/
def skipIgnored (s : YamlScanner) (first_indent : Nat) : YamlScanner :=
  skipIgnoredGo (s.rest.length + 1) s first_indent

mutual

/-- Loop of `handle_block_seq` (`sequence.rs` lines 63-107).  An empty line
hits `continue` without consuming anything, and this loop has no dead-loop
guard, so the source loops forever there; the embedding burns one unit of
fuel per pass. -/
def seqLoop (fuel : Nat) (p : YamlParser) (indent_count : Nat) :
    Except ParseErr YamlParser :=
  match fuel with
  | 0 => .error .outOfFuel
  | fuel + 1 =>
    match p.scanner.peek_line with
    | none => .ok p
    | some line =>
      if line.isEmpty then seqLoop fuel p indent_count
      else
        let cur_indent := countLeadingSpaces line
        if cur_indent < indent_count then .ok p
        else
          let trimmed := trimStartSpaces line
          if trimmed = ['-'] then
            let p := { p with scanner := (p.scanner.next_line).2 }
            match p.scanner.peek_line with
            | some next_line =>
              let next_indent := countLeadingSpaces next_line
              match handleNode fuel p next_indent next_indent none with
              | .error e => .error e
              | .ok p => seqLoop fuel p indent_count
            | none =>
              let p :=
                if p.scanner.rest.isEmpty then
                  p.push_event
                    (.Scalar none [] p.scanner.done_pos p.scanner.done_pos)
                else p
              seqLoop fuel p indent_count
          else if "- ".toList.isPrefixOf trimmed then
            let p := { p with scanner := p.scanner.advance (cur_indent + 2) }
            match handleNode fuel p 0 (cur_indent + 2) none with
            | .error e => .error e
            | .ok p => seqLoop fuel p indent_count
          else if trimmed.isEmpty then
            seqLoop fuel { p with scanner := (p.scanner.next_line).2 }
              indent_count
          else
            .error (.err .InvalidSequnceStartIndicator p.scanner.next_pos
              p.scanner.next_pos)
termination_by structural fuel

/-- `YamlParser::handle_block_seq` (`sequence.rs` lines 51-112). -/
def handleBlockSeq (fuel : Nat) (p : YamlParser) (indent_count : Nat)
    (tag : Option (List Char)) : Except ParseErr YamlParser :=
  match fuel with
  | 0 => .error .outOfFuel
  | fuel + 1 =>
    let p := (p.push_event
      (.SequenceStart tag p.scanner.next_pos)).push_state .InBlockSequnce
    match seqLoop fuel p indent_count with
    | .error e => .error e
    | .ok p =>
      .ok ((p.push_event (.SequenceEnd p.scanner.done_pos)).pop_state)
termination_by structural fuel

/-- Tail of a `handle_block_map` iteration after the key and the value
indents are settled (`map.rs` lines 227-244): parse the value node, pop the
state, run the dead-loop guard and loop. -/
def mapAfterKey (fuel : Nat) (p : YamlParser)
    (firstIndent restIndent vFirst vRest : Nat) (isFirst : Bool)
    (pre_pos : YamlPosition) : Except ParseErr YamlParser :=
  match fuel with
  | 0 => .error .outOfFuel
  | fuel + 1 =>
    match handleNode fuel p vFirst vRest none with
    | .error e => .error e
    | .ok p =>
      let p := p.pop_state
      if pre_pos = p.scanner.done_pos then
        .error (.err .Bug p.scanner.done_pos p.scanner.done_pos)
      else mapLoop fuel p firstIndent restIndent vFirst vRest isFirst
termination_by structural fuel

/-- Loop of `handle_block_map` (`map.rs` lines 135-245).  `vFirst`/`vRest`
model the `value_first_indent_count`/`value_rest_indent_count` locals that
persist across iterations. -/
def mapLoop (fuel : Nat) (p : YamlParser)
    (firstIndent restIndent vFirst vRest : Nat) (isFirst : Bool) :
    Except ParseErr YamlParser :=
  match fuel with
  | 0 => .error .outOfFuel
  | fuel + 1 =>
    match p.scanner.peek_line with
    | none => .ok p
    | some line =>
      let pre_pos := p.scanner.done_pos
      if line.isEmpty then
        mapLoop fuel { p with scanner := (p.scanner.next_line).2 } firstIndent
          restIndent vFirst vRest isFirst
      else
        let cur_indent := countLeadingSpaces line
        let desired := if isFirst then firstIndent else restIndent
        let isFirst := false
        if cur_indent < desired then .ok p
        else if p.cur_state.is_block_map_value then
          match handleNode fuel p vFirst vRest none with
          | .error e => .error e
          | .ok p =>
            let p := p.pop_state
            if pre_pos = p.scanner.done_pos then
              .error (.err .Bug p.scanner.done_pos p.scanner.done_pos)
            else
              mapLoop fuel p firstIndent restIndent vFirst vRest isFirst
        else
          let p :=
            if ¬p.cur_state.is_block_map_key then p.push_state .InBlockMapKey
            else p
          match handlePlainScalar p desired desired none with
          | .error e => .error e
          | .ok p =>
            match p.scanner.peek_line with
            | none =>
              mapLoop fuel p firstIndent restIndent vFirst vRest isFirst
            | some line =>
              let p := (p.pop_state).push_state .InBlockMapValue
              let trimmed_line := trimEndMatches [' '] line
              if trimmed_line.getLast? = some ':' then
                let p := { p with scanner := (p.scanner.next_line).2 }
                match p.scanner.peek_line with
                | some next_line =>
                  let next_ind := countLeadingSpaces next_line
                  if next_ind < desired then
                    .error (.err .Bug p.scanner.done_pos p.scanner.done_pos)
                  else
                    mapAfterKey fuel p firstIndent restIndent next_ind
                      next_ind isFirst pre_pos
                | none =>
                  .ok (p.push_event
                    (.Scalar none [] p.scanner.done_pos p.scanner.done_pos))
              else if containsSub line ": ".toList then
                let p := { p with scanner := p.scanner.advance_offset 2 }
                mapAfterKey fuel p firstIndent restIndent 0
                  p.scanner.done_pos.column isFirst pre_pos
              else if trimmed_line.isEmpty then
                let p := { p with scanner := (p.scanner.next_line).2 }
                mapAfterKey fuel p firstIndent restIndent vFirst vRest
                  isFirst pre_pos
              else
                .error (.err .Bug p.scanner.done_pos p.scanner.done_pos)
termination_by structural fuel

/-- `YamlParser::handle_block_map` (`map.rs` lines 120-250).  Both value
indents start at `first_indent_count`. -/
def handleBlockMap (fuel : Nat) (p : YamlParser)
    (first_indent rest_indent : Nat) (tag : Option (List Char)) :
    Except ParseErr YamlParser :=
  match fuel with
  | 0 => .error .outOfFuel
  | fuel + 1 =>
    let p := (p.push_event
      (.MapStart tag p.scanner.next_pos)).push_state .InBlockMapKey
    match mapLoop fuel p first_indent rest_indent first_indent first_indent
        true with
    | .error e => .error e
    | .ok p => .ok ((p.push_event (.MapEnd p.scanner.done_pos)).pop_state)
termination_by structural fuel

/-- `YamlParser::handle_node` (`parser.rs` lines 130-221): skip ignorable
lines, then dispatch on the shape of the next line.  `handle_flow_seq` and
`handle_flow_map` are `todo!()` in the source and panic. -/
def handleNode (fuel : Nat) (p : YamlParser)
    (first_indent rest_indent : Nat) (tag : Option (List Char)) :
    Except ParseErr YamlParser :=
  match fuel with
  | 0 => .error .outOfFuel
  | fuel + 1 =>
    let p := { p with scanner := skipIgnored p.scanner first_indent }
    match p.scanner.peek_line with
    | none => .ok p
    | some line =>
      let indent_count := countLeadingSpaces line
      if indent_count < first_indent then
        if p.cur_state.is_container then .ok p
        else
          let s' := (p.scanner.next_line).2
          .error (.err .LessIndentedWithoutParent p.scanner.next_pos
            s'.done_pos)
      else
        let trimmed := trimStartSpaces line
        if "- ".toList.isPrefixOf trimmed ∨ trimmed = ['-'] then
          handleBlockSeq fuel p (rest_indent + indent_count - first_indent)
            tag
        else if trimmed.head? = some '\'' ∨ trimmed.head? = some '"' then
          handleScalar p 0 0 tag
        else if containsSub trimmed ": ".toList then
          handleBlockMap fuel p (max first_indent indent_count)
            (max rest_indent indent_count) tag
        else if trimmed.getLast? = some ':' then
          handleBlockMap fuel p first_indent rest_indent tag
        else if trimmed.head? = some '[' then handleFlowSeq p tag
        else if trimmed.head? = some '{' then handleFlowMap p tag
        else if trimmed.head? = some '!' then
          let s := p.scanner.advance indent_count
          let ts := handleTag s
          handleNode fuel { p with scanner := ts.2 } first_indent rest_indent
            ts.1
        else if trimmed.head? = some '\t' then
          .error (.err .InvalidStartOfToken p.scanner.next_pos
            p.scanner.next_pos)
        else
          handleScalar p first_indent rest_indent tag
termination_by structural fuel

/-- Loop of `YamlParser::handle_stream` (`parser.rs` lines 71-104). -/
def streamLoop (fuel : Nat) (p : YamlParser) : Except ParseErr YamlParser :=
  match fuel with
  | 0 => .error .outOfFuel
  | fuel + 1 =>
    match p.scanner.peek_line with
    | none => .ok p
    | some line =>
      let trimmed := trimStartSpaces line
      if trimmed.isEmpty then
        streamLoop fuel { p with scanner := p.scanner.advance_till_linebreak }
      else if trimmed = "---".toList then
        let indent_count := countLeadingSpaces line
        let p := p.push_event (.DocumentStart true p.scanner.next_pos)
        let p := { p with scanner := p.scanner.advance_till_linebreak }
        match handleNode fuel p indent_count indent_count none with
        | .error e => .error e
        | .ok p => streamLoop fuel p
      else
        match findSub line "--- ".toList with
        | some offset =>
          let p := p.push_event (.DocumentStart true p.scanner.next_pos)
          let p :=
            { p with scanner := p.scanner.advance_offset (offset + 4) }
          match handleNode fuel p 0 0 none with
          | .error e => .error e
          | .ok p => streamLoop fuel p
        | none =>
          if trimmed = "...".toList then
            let p := p.push_event (.DocumentEnd true p.scanner.next_pos)
            streamLoop fuel
              { p with scanner := p.scanner.advance_till_linebreak_or_space }
          else
            let p := p.push_event (.DocumentStart false p.scanner.next_pos)
            match handleNode fuel p 0 0 none with
            | .error e => .error e
            | .ok p => streamLoop fuel p
termination_by structural fuel

/-- `YamlParser::handle_stream` (`parser.rs` lines 68-127): `StreamStart`,
the document loop, the implicit `DocumentStart`/`DocumentEnd` fixups,
`StreamEnd`. -/
def handleStream (fuel : Nat) (p : YamlParser) : Except ParseErr YamlParser :=
  match fuel with
  | 0 => .error .outOfFuel
  | fuel + 1 =>
    let p := p.push_event .StreamStart
    match streamLoop fuel p with
    | .error e => .error e
    | .ok p =>
      let p :=
        if ¬p.events.any (fun e =>
            match e with | .DocumentStart _ _ => true | _ => false) then
          p.push_event (.DocumentStart false RmsdPosition.EOF)
        else p
      let p :=
        if ¬p.events.any (fun e =>
            match e with | .DocumentEnd _ _ => true | _ => false) then
          p.push_event (.DocumentEnd false p.scanner.done_pos)
        else p
      .ok (p.push_event .StreamEnd)

/-- Outer loop of `YamlParser::parse_to_events` (`parser.rs` lines 44-59)
with its dead-loop guard. -/
def parseLoop (fuel : Nat) (p : YamlParser) :
    Except ParseErr (List YamlEvent) :=
  match fuel with
  | 0 => .error .outOfFuel
  | fuel + 1 =>
    if p.scanner.is_empty then .ok p.events
    else
      let cur_pos := p.scanner.done_pos
      match handleStream fuel p with
      | .error e => .error e
      | .ok p =>
        if p.scanner.done_pos = cur_pos then .error (.err .Bug cur_pos cur_pos)
        else parseLoop fuel p

end

/-- `YamlParser::parse_to_events` (`parser.rs` lines 36-65), fueled. -/
def parse_to_events (fuel : Nat) (input : List Char) :
    Except ParseErr (List YamlEvent) :=
  parseLoop fuel
    { scanner := YamlScanner.new input, states := [], events := [] }

/-! ## Parser generation: the composer (`compose.rs`, `map.rs`) -/

mutual

/-- `compose.rs`'s `YamlValueData`: all scalars are carried as strings; a
`Map` is the insertion-ordered `YamlValueMap`, embedded as its entry list. -/
inductive YamlValueData where
  | Null
  | String (s : List Char)
  | Array (l : List YamlValue)
  | Map (m : List (YamlValue × YamlValue))
  | Tag (t : YamlTag)

/-- `YamlValue`: data plus start/end positions (`stop` models the Rust field
`end`). -/
inductive YamlValue where
  | mk (data : YamlValueData) (start stop : YamlPosition)

/-- `YamlTag`: a tag name wrapping a data payload. -/
inductive YamlTag where
  | mk (name : List Char) (data : YamlValueData)

end

/-- Field accessor for `YamlValue.data`. -/
def YamlValue.data : YamlValue → YamlValueData
  | .mk d _ _ => d

/-- Field accessor for `YamlValue.start`. -/
def YamlValue.start : YamlValue → YamlPosition
  | .mk _ s _ => s

/-- Field accessor for `YamlValue.stop` (the Rust field `end`). -/
def YamlValue.stop : YamlValue → YamlPosition
  | .mk _ _ e => e

/-- `Default for YamlValue`: `Null` data with default positions. -/
def YamlValue.rustDefault : YamlValue :=
  .mk .Null RmsdPosition.rustDefault RmsdPosition.rustDefault

/-- `map.rs` (`YamlValueMap`): `IndexMap<YamlValue, YamlValue>` embedded as
its insertion-ordered entry list. -/
abbrev YamlValueMap := List (YamlValue × YamlValue)

mutual

/-- Structural equality on `YamlValueData`, mirroring the derived `Eq`. -/
def YamlValueData.beq : YamlValueData → YamlValueData → Bool
  | .Null, .Null => true
  | .String a, .String b => a = b
  | .Array a, .Array b => YamlValue.beqList a b
  | .Map a, .Map b => YamlValue.beqPairs a b
  | .Tag a, .Tag b => YamlTag.beq a b
  | _, _ => false

/-- Structural equality on `YamlValue`, mirroring the derived `Eq`. -/
def YamlValue.beq : YamlValue → YamlValue → Bool
  | .mk d s e, .mk d' s' e' => YamlValueData.beq d d' && (s = s') && (e = e')

/-- Structural equality on `YamlTag`. -/
def YamlTag.beq : YamlTag → YamlTag → Bool
  | .mk n d, .mk n' d' => (n = n') && YamlValueData.beq d d'

/-- Structural equality on value lists. -/
def YamlValue.beqList : List YamlValue → List YamlValue → Bool
  | [], [] => true
  | a :: as, b :: bs => YamlValue.beq a b && YamlValue.beqList as bs
  | _, _ => false

/-- Structural equality on entry lists. -/
def YamlValue.beqPairs :
    List (YamlValue × YamlValue) → List (YamlValue × YamlValue) → Bool
  | [], [] => true
  | (k, v) :: as, (k', v') :: bs =>
    YamlValue.beq k k' && YamlValue.beq v v' && YamlValue.beqPairs as bs
  | _, _ => false

end

/-- `YamlValueMap::insert`, i.e. `IndexMap::insert` (`map.rs` lines 37-39):
if an equal key exists, update the value in place keeping the key at its
original position; otherwise append the new entry at the end. -/
def YamlValueMap.insert (m : YamlValueMap) (key val : YamlValue) :
    YamlValueMap :=
  match m with
  | [] => [(key, val)]
  | e :: rest =>
    if e.1.beq key then (e.1, val) :: rest
    else e :: YamlValueMap.insert rest key val

mutual

/-- `compose_value` (`compose.rs` lines 15-115), with the
`doc_started_pos` local threaded as `docPos` and the event iterator as the
list of remaining events.  The fuel makes the mutual recursion structural;
every pass consumes an event, so `events.length + 1` always suffices. -/
def composeValueGo (fuel : Nat) (docPos : Option YamlPosition)
    (events : List YamlEvent) :
    Except ParseErr (YamlValue × List YamlEvent) :=
  match fuel with
  | 0 => .error .outOfFuel
  | fuel + 1 =>
    match events with
    | [] => .ok (YamlValue.rustDefault, [])
    | e :: rest =>
      match e with
      | .StreamStart => composeValueGo fuel docPos rest
      | .DocumentStart _ pos =>
        match docPos with
        | some started =>
          .error (.err .NoSupportMultipleDocuments started pos)
        | none => composeValueGo fuel (some pos) rest
      | .DocumentEnd _ _ => .ok (YamlValue.rustDefault, rest)
      | .StreamEnd => .ok (YamlValue.rustDefault, rest)
      | .SequenceStart tag pos =>
        match composeSequenceGo fuel rest pos [] with
        | .error er => .error er
        | .ok (arr, rest') =>
          match tag with
          | some t =>
            .ok (.mk (.Tag (.mk t arr.data)) arr.start arr.stop, rest')
          | none => .ok (arr, rest')
      | .SequenceEnd pos => .error (.err .Bug pos pos)
      | .MapStart tag pos =>
        match composeMapGo fuel rest pos [] none with
        | .error er => .error er
        | .ok (map, rest') =>
          match tag with
          | some t =>
            .ok (.mk (.Tag (.mk t map.data)) map.start map.stop, rest')
          | none => .ok (map, rest')
      | .MapEnd pos => .error (.err .Bug pos pos)
      | .Scalar tag val start stop =>
        match tag with
        | some t => .ok (.mk (.Tag (.mk t (.String val))) start stop, rest)
        | none => .ok (.mk (.String val) start stop, rest)
termination_by structural fuel

/-- `compose_sequence` (`compose.rs` lines 117-141); `acc` is the `ret`
vector.  When the events run out before a `SequenceEnd`, the end position is
the untouched `YamlPosition::default()`. -/
def composeSequenceGo (fuel : Nat) (events : List YamlEvent)
    (start_pos : YamlPosition) (acc : List YamlValue) :
    Except ParseErr (YamlValue × List YamlEvent) :=
  match fuel with
  | 0 => .error .outOfFuel
  | fuel + 1 =>
    match events with
    | [] => .ok (.mk (.Array acc) start_pos RmsdPosition.rustDefault, [])
    | .SequenceEnd pos :: rest => .ok (.mk (.Array acc) start_pos pos, rest)
    | e :: rest =>
      match composeValueGo fuel none (e :: rest) with
      | .error er => .error er
      | .ok (v, rest') =>
        composeSequenceGo fuel rest' start_pos (acc ++ [v])
termination_by structural fuel

/-- `compose_map` (`compose.rs` lines 143-173); `ret` is the accumulated
`YamlValueMap` and `key` the pending key. -/
def composeMapGo (fuel : Nat) (events : List YamlEvent)
    (start_pos : YamlPosition) (ret : YamlValueMap)
    (key : Option YamlValue) :
    Except ParseErr (YamlValue × List YamlEvent) :=
  match fuel with
  | 0 => .error .outOfFuel
  | fuel + 1 =>
    match events with
    | [] => .ok (.mk (.Map ret) start_pos RmsdPosition.rustDefault, [])
    | .MapEnd pos :: rest => .ok (.mk (.Map ret) start_pos pos, rest)
    | e :: rest =>
      match key with
      | some k =>
        match composeValueGo fuel none (e :: rest) with
        | .error er => .error er
        | .ok (v, rest') =>
          composeMapGo fuel rest' start_pos (YamlValueMap.insert ret k v) none
      | none =>
        match composeValueGo fuel none (e :: rest) with
        | .error er => .error er
        | .ok (v, rest') => composeMapGo fuel rest' start_pos ret (some v)
termination_by structural fuel

end

/-- `YamlValue::compose` (`compose.rs` lines 8-13), fueled. -/
def YamlValue.compose (fuel : Nat) (events : List YamlEvent) :
    Except ParseErr YamlValue :=
  match composeValueGo fuel none events with
  | .error e => .error e
  | .ok (v, _) => .ok v

/-! ## Claim theorems -/

/-- C9: the claim says `max_width = 0` disables the width limit so no scalar
is double-quoted for its length; the code's `to_scalar_string` tests
`indent_count + length < max_width`, which is false for every input at
`max_width = 0`, so every scalar — at every indent — comes back
double-quoted.  This contradicts the option's own documentation (`0 means no
limit`). -/
theorem c9_max_width_zero_always_quotes :
    ∀ (indent_count : Nat) (input : List Char),
      Rmsd.to_scalar_string indent_count input 0 = '"' :: (input ++ ['"']) := by
  intro i s
  simp [Rmsd.to_scalar_string]

/-- C8: the claim says `peek`/`next` return on every input and a lone `\r`
is a line break.  In the code, `CharsIter::peek` loops forever whenever the
head character is `\r` (first conjunct: the fueled embedding of that loop
returns `none` — never an answer — for every fuel), and `CharsIter::next`
silently skips a lone `\r` without starting a new line (second conjunct: on
`"a\rb"` the character `b` is reported at line 1 column 2, not at line 2). -/
theorem c8_peek_diverges_and_lone_cr_is_skipped :
    (∀ (fuel : Nat) (pos np : RmsdPosition) (tail : List Char),
      Rmsd.CharsIter.peekFuel fuel ⟨pos, np, '\r' :: tail⟩ = none)
    ∧ (Rmsd.CharsIter.new "a\rb".toList).next.2.next
        = (some 'b', ⟨⟨1, 2⟩, ⟨1, 3⟩, []⟩) := by
  constructor
  · intro fuel pos np tail
    induction fuel with
    | zero => rfl
    | succ n ih => simpa [Rmsd.CharsIter.peekFuel] using ih
  · decide

/-- C1: the claim (and YAML 1.2.2) gives `-` Strip behaviour and `+` Keep
behaviour.  The code's header parse maps `+` to `Strip` and `-` to `Keep`
(first two conjuncts), so `--- |+` drops the trailing line breaks of
`abc\n\n\n` and `--- |-` retains them (last two conjuncts) — exactly the
opposite of the claim. -/
theorem c1_chomping_indicators_swapped :
    (literalHeader (YamlScanner.new "+\nx".toList) '+').2.1
        = ChompingMethod.Strip
    ∧ (literalHeader (YamlScanner.new "-\nx".toList) '-').2.1
        = ChompingMethod.Keep
    ∧ parse_to_events 40 "--- |+\nabc\n\n\n".toList
        = .ok [ .StreamStart, .DocumentStart true ⟨1, 1⟩,
                .Scalar none "abc".toList ⟨2, 1⟩ ⟨4, 1⟩,
                .DocumentEnd false ⟨4, 1⟩, .StreamEnd ]
    ∧ parse_to_events 40 "--- |-\nabc\n\n\n".toList
        = .ok [ .StreamStart, .DocumentStart true ⟨1, 1⟩,
                .Scalar none "abc\n\n\n".toList ⟨2, 1⟩ ⟨4, 1⟩,
                .DocumentEnd false ⟨4, 1⟩, .StreamEnd ] :=
  ⟨rfl, rfl, by decide, by decide⟩

/-- C4: the claim says the flow-style input parses and composes like its
block-style equivalent.  In the code both flow handlers are `todo!()` stubs
that panic (first conjunct), and the claimed input never even reaches them:
`handle_node` sees `": "` first and dispatches to the block-map path, whose
key validation rejects the leading `{` with `InvalidPlainScalarStart`
(second conjunct); a flow sequence input does reach the stub and panics
(third conjunct). -/
theorem c4_flow_collections_unsupported :
    (∀ (p : YamlParser) (tag : Option (List Char)),
        handleFlowSeq p tag = .error .panicTodo
      ∧ handleFlowMap p tag = .error .panicTodo)
    ∧ parse_to_events 60
        "\x7b uint_a: 500, str_b: \"abc\", bar: \x7bdata: false\x7d\x7d".toList
        = .error (.err .InvalidPlainScalarStart ⟨1, 1⟩ ⟨1, 1⟩)
    ∧ parse_to_events 60 "[1, 2]".toList = .error .panicTodo :=
  ⟨fun _ _ => ⟨rfl, rfl⟩, by decide, by decide⟩

/-- Once `handle_block_seq`'s loop peeks an empty line it `continue`s without
consuming anything and without a dead-loop guard, so it never terminates: the
fueled embedding exhausts any fuel. -/
theorem seqLoop_spin (fuel : Nat) (p : YamlParser) (indent : Nat)
    (h : p.scanner.rest.head? = some '\n' ∨ p.scanner.rest.head? = some '\r') :
    seqLoop fuel p indent = .error .outOfFuel := by
  induction fuel with
  | zero => rfl
  | succ n ih =>
    cases hrest : p.scanner.rest with
    | nil => simp [hrest] at h
    | cons c t =>
      rw [hrest] at h
      simp only [List.head?] at h
      have hc : c = '\n' ∨ c = '\r' := by
        rcases h with h | h <;> [left; right] <;> exact Option.some.inj h
      have hpeek : p.scanner.peek_line = some [] := by
        simp only [YamlScanner.peek_line, YamlScanner.peek_till_linebreak,
          hrest]
        rcases hc with h | h <;> simp [h, List.takeWhile]
      simp only [seqLoop, hpeek, List.isEmpty_nil, if_true]
      exact ih

/-- The parser state at entry to the spinning `handle_block_seq` iteration on
the input `"- a\n\n- b\n"`: the first element `a` has been consumed and the
scanner sits on the blank line. -/
def c3SpinP : YamlParser :=
  ⟨⟨"\n- b\n".toList, ⟨2, 1⟩, ⟨1, 4⟩⟩, [.InBlockSequnce],
    [.StreamStart, .DocumentStart false ⟨1, 1⟩, .SequenceStart none ⟨1, 1⟩,
      .Scalar none "a".toList ⟨1, 3⟩ ⟨1, 3⟩]⟩

/-- C3: the claim says every parsing-loop iteration strictly advances the
scanner or aborts with `Bug`, so `parse_to_events` terminates on all inputs.
It does not: on `"- a\n\n- b\n"` (a blank line inside a block sequence) the
`handle_block_seq` loop reaches the blank line and `continue`s forever
without consuming anything or raising `Bug` — for every fuel the embedding
reports fuel exhaustion, never a result. -/
theorem c3_block_seq_dead_loops_on_blank_line :
    ∀ (fuel : Nat),
      parse_to_events fuel "- a\n\n- b\n".toList = .error .outOfFuel := by
  intro f
  rcases Nat.lt_or_ge f 7 with h | h
  · interval_cases f <;> rfl
  · obtain ⟨m, rfl⟩ : ∃ m, f = m + 7 := ⟨f - 7, by omega⟩
    have hs : seqLoop m c3SpinP 0 = .error .outOfFuel :=
      seqLoop_spin m c3SpinP 0 (Or.inl rfl)
    have h1 : parse_to_events (m + 7) "- a\n\n- b\n".toList =
        (match (match (match (match seqLoop m c3SpinP 0 with
              | Except.error e => (Except.error e : Except ParseErr YamlParser)
              | Except.ok p =>
                Except.ok
                  ((p.push_event
                    (.SequenceEnd p.scanner.done_pos)).pop_state)) with
            | Except.error e => (Except.error e : Except ParseErr YamlParser)
            | Except.ok p => streamLoop (m + 4) p) with
          | Except.error e => (Except.error e : Except ParseErr YamlParser)
          | Except.ok p =>
            let p :=
              if ¬p.events.any (fun e =>
                  match e with | .DocumentStart _ _ => true | _ => false) then
                p.push_event (.DocumentStart false RmsdPosition.EOF)
              else p
            let p :=
              if ¬p.events.any (fun e =>
                  match e with | .DocumentEnd _ _ => true | _ => false) then
                p.push_event (.DocumentEnd false p.scanner.done_pos)
              else p
            Except.ok (p.push_event .StreamEnd)) with
        | Except.error e =>
          (Except.error e : Except ParseErr (List YamlEvent))
        | Except.ok p =>
          if p.scanner.done_pos = (⟨1, 0⟩ : RmsdPosition) then
            Except.error (.err .Bug ⟨1, 0⟩ ⟨1, 0⟩)
          else parseLoop (m + 6) p) := rfl
    rw [h1, hs]

/-! ## C5: integer coercions (`value.rs`) -/

/-- Character order agrees with code-point order. -/
theorem char_le_toNat {a b : Char} : a ≤ b ↔ a.toNat ≤ b.toNat := Iff.rfl

/-- `+` is not a digit in any radix. -/
theorem charToDigit_plus (r : Nat) : charToDigit '+' r = none := by
  simp [charToDigit, charToDigitRaw]

/-- On a non-empty all-digit string, Rust's checked radix parse returns the
Horner value when it fits the bound. -/
theorem uintFromStrRadix_all_digits (s : List Char) (r bound : Nat)
    (hne : s ≠ []) (hall : ∀ c ∈ s, (charToDigit c r).isSome = true) :
    uintFromStrRadix s r bound =
      if hornerVal r s ≤ bound then some (hornerVal r s) else none := by
  have hhead : s.head? ≠ some '+' := by
    cases s with
    | nil => simp
    | cons c t =>
      simp only [List.head?, ne_eq, Option.some.injEq]
      intro h
      have hc := hall c (by simp)
      rw [h, charToDigit_plus] at hc
      simp at hc
  have hallb : s.all (fun c => (charToDigit c r).isSome) = true :=
    List.all_eq_true.mpr hall
  simp only [uintFromStrRadix, if_neg hhead, if_neg hne, hallb, if_true]

/-- Modelled from the spec's words, for the refinement comparison of C5: the
base selected by the scalar's prefix (`0x`/`0X` hex, `0o`/`0O` octal,
`0b`/`0B` binary, otherwise decimal) together with the digit text that
follows it. -/
def detectedBase (s : List Char) : Nat × List Char :=
  if "0x".toList.isPrefixOf s || "0X".toList.isPrefixOf s then (16, s.drop 2)
  else if "0o".toList.isPrefixOf s || "0O".toList.isPrefixOf s then
    (8, s.drop 2)
  else if "0b".toList.isPrefixOf s || "0B".toList.isPrefixOf s then
    (2, s.drop 2)
  else (10, s)

/-- Modelled from the spec's words: `parse-integer-in-detected-base(text)`,
the positional value of the digit text in the detected base. -/
def specParseIntegerInDetectedBase (s : List Char) : Nat :=
  hornerVal (detectedBase s).1 (detectedBase s).2

/-- C5 counterexample: `str_is_integer` accepts the empty string (`all` over
an empty list is vacuously true), yet `as_u64` on that scalar returns an
`InvalidNumber` error instead of succeeding — the claim as stated is false. -/
theorem c5_counterexample :
    Rmsd.str_is_integer [] = true
    ∧ (Rmsd.YamlValue.mk (.Scalar []) ⟨1, 1⟩ ⟨1, 1⟩).as_u64
        = .error (Rmsd.RmsdError.invalid_number [] ⟨1, 1⟩) := ⟨rfl, rfl⟩

/-- `as_u64` returns the detected-base value, given the digit facts. -/
theorem c5_as_u64_key (s : List Char) (start stop : RmsdPosition)
    (hint : Rmsd.str_is_integer s = true)
    (hne : (detectedBase s).2 ≠ [])
    (hfit : specParseIntegerInDetectedBase s ≤ u64Max)
    (hall : ∀ c ∈ (detectedBase s).2,
      (charToDigit c (detectedBase s).1).isSome = true) :
    (Rmsd.YamlValue.mk (.Scalar s) start stop).as_u64
      = .ok (specParseIntegerInDetectedBase s) := by
  rw [specParseIntegerInDetectedBase] at hfit ⊢
  by_cases hx : ("0x".toList.isPrefixOf s || "0X".toList.isPrefixOf s) = true
  · have hdb : detectedBase s = (16, s.drop 2) := by
      unfold detectedBase
      rw [if_pos hx]
    rw [hdb] at hne hall hfit ⊢
    unfold Rmsd.YamlValue.as_u64
    simp only [Rmsd.YamlValue.data]
    rw [if_pos hx, u64FromStrRadix,
      uintFromStrRadix_all_digits (s.drop 2) 16 u64Max hne hall,
      if_pos hfit]
  · by_cases ho : ("0o".toList.isPrefixOf s || "0O".toList.isPrefixOf s) = true
    · have hdb : detectedBase s = (8, s.drop 2) := by
        unfold detectedBase
        rw [if_neg hx, if_pos ho]
      rw [hdb] at hne hall hfit ⊢
      unfold Rmsd.YamlValue.as_u64
      simp only [Rmsd.YamlValue.data]
      rw [if_neg hx, if_pos ho, u64FromStrRadix,
        uintFromStrRadix_all_digits (s.drop 2) 8 u64Max hne hall,
        if_pos hfit]
    · by_cases hb :
          ("0b".toList.isPrefixOf s || "0B".toList.isPrefixOf s) = true
      · have hdb : detectedBase s = (2, s.drop 2) := by
          unfold detectedBase
          rw [if_neg hx, if_neg ho, if_pos hb]
        rw [hdb] at hne hall hfit ⊢
        unfold Rmsd.YamlValue.as_u64
        simp only [Rmsd.YamlValue.data]
        rw [if_neg hx, if_neg ho, if_pos hb, u64FromStrRadix,
          uintFromStrRadix_all_digits (s.drop 2) 2 u64Max hne hall,
          if_pos hfit]
      · have hdb : detectedBase s = (10, s) := by
          unfold detectedBase
          rw [if_neg hx, if_neg ho, if_neg hb]
        rw [hdb] at hne hall hfit ⊢
        unfold Rmsd.YamlValue.as_u64
        simp only [Rmsd.YamlValue.data]
        rw [if_neg hx, if_neg ho, if_neg hb, u64FromStrRadix,
          uintFromStrRadix_all_digits s 10 u64Max hne hall,
          if_pos hfit]

/-- A decimal-digit character is a valid digit in radix 10. -/
theorem charToDigit_of_isAsciiDigit {c : Char} (h : isAsciiDigit c = true) :
    (charToDigit c 10).isSome = true := by
  simp only [isAsciiDigit, decide_eq_true_eq, char_le_toNat] at h
  have e0 : '0'.toNat = 48 := rfl
  have e9 : '9'.toNat = 57 := rfl
  rw [e0, e9] at h
  unfold charToDigit charToDigitRaw
  rw [if_pos (by rw [char_le_toNat, char_le_toNat, e0, e9]; omega :
    '0' ≤ c ∧ c ≤ '9')]
  rw [e0]
  have : c.toNat - 48 < 10 := by omega
  simp [this]

/-- A hex-digit character is a valid digit in radix 16. -/
theorem charToDigit_of_isAsciiHexdigit {c : Char}
    (h : isAsciiHexdigit c = true) : (charToDigit c 16).isSome = true := by
  simp only [isAsciiHexdigit, isAsciiDigit, Bool.or_eq_true,
    decide_eq_true_eq, char_le_toNat] at h
  have e0 : '0'.toNat = 48 := rfl
  have e9 : '9'.toNat = 57 := rfl
  have ea : 'a'.toNat = 97 := rfl
  have eA : 'A'.toNat = 65 := rfl
  rw [e0, e9, ea, show 'f'.toNat = 102 from rfl, eA,
    show 'F'.toNat = 70 from rfl] at h
  unfold charToDigit charToDigitRaw
  rcases h with (h | h) | h
  · rw [if_pos (by rw [char_le_toNat, char_le_toNat, e0, e9]; omega :
      '0' ≤ c ∧ c ≤ '9')]
    rw [e0]
    have : c.toNat - 48 < 16 := by omega
    simp [this]
  · rw [if_neg (by rw [char_le_toNat, char_le_toNat, e0, e9]; omega :
      ¬('0' ≤ c ∧ c ≤ '9'))]
    rw [if_pos (by rw [char_le_toNat, char_le_toNat, ea,
      show 'z'.toNat = 122 from rfl]; omega : 'a' ≤ c ∧ c ≤ 'z')]
    rw [ea]
    have : c.toNat - 97 + 10 < 16 := by omega
    simp [this]
  · rw [if_neg (by rw [char_le_toNat, char_le_toNat, e0, e9]; omega :
      ¬('0' ≤ c ∧ c ≤ '9'))]
    rw [if_neg (by rw [char_le_toNat, char_le_toNat, ea,
      show 'z'.toNat = 122 from rfl]; omega : ¬('a' ≤ c ∧ c ≤ 'z'))]
    rw [if_pos (by rw [char_le_toNat, char_le_toNat, eA,
      show 'Z'.toNat = 90 from rfl]; omega : 'A' ≤ c ∧ c ≤ 'Z')]
    rw [eA]
    have : c.toNat - 65 + 10 < 16 := by omega
    simp [this]

/-- A scalar accepted by `str_is_integer` has only valid digits of its
detected base. -/
theorem c5_integer_digits (s : List Char)
    (hint : Rmsd.str_is_integer s = true) :
    ∀ c ∈ (detectedBase s).2,
      (charToDigit c (detectedBase s).1).isSome = true := by
  by_cases hx : ("0x".toList.isPrefixOf s || "0X".toList.isPrefixOf s) = true
  · have hdb : detectedBase s = (16, s.drop 2) := by
      unfold detectedBase
      rw [if_pos hx]
    rw [hdb]
    unfold Rmsd.str_is_integer at hint
    rw [if_pos hx] at hint
    exact fun c hc =>
      charToDigit_of_isAsciiHexdigit (List.all_eq_true.mp hint c hc)
  · by_cases ho : ("0o".toList.isPrefixOf s || "0O".toList.isPrefixOf s) = true
    · have hdb : detectedBase s = (8, s.drop 2) := by
        unfold detectedBase
        rw [if_neg hx, if_pos ho]
      rw [hdb]
      unfold Rmsd.str_is_integer at hint
      rw [if_neg hx, if_pos ho] at hint
      intro c hc
      simpa [isDigitRadix] using List.all_eq_true.mp hint c hc
    · by_cases hb :
          ("0b".toList.isPrefixOf s || "0B".toList.isPrefixOf s) = true
      · have hdb : detectedBase s = (2, s.drop 2) := by
          unfold detectedBase
          rw [if_neg hx, if_neg ho, if_pos hb]
        rw [hdb]
        unfold Rmsd.str_is_integer at hint
        rw [if_neg hx, if_neg ho, if_pos hb] at hint
        intro c hc
        simpa [isDigitRadix] using List.all_eq_true.mp hint c hc
      · have hdb : detectedBase s = (10, s) := by
          unfold detectedBase
          rw [if_neg hx, if_neg ho, if_neg hb]
        rw [hdb]
        unfold Rmsd.str_is_integer at hint
        rw [if_neg hx, if_neg ho, if_neg hb] at hint
        exact fun c hc =>
          charToDigit_of_isAsciiDigit (List.all_eq_true.mp hint c hc)

/-- `as_u64` on an all-digit scalar whose value exceeds `u64::MAX`: the
checked parse fails and `map_err` turns the failure — overflow included —
into an `InvalidNumber` error, never `NumberOverflow`. -/
theorem c5_as_u64_overflow_key (s : List Char) (start stop : RmsdPosition)
    (hne : (detectedBase s).2 ≠ [])
    (hall : ∀ c ∈ (detectedBase s).2,
      (charToDigit c (detectedBase s).1).isSome = true)
    (hover : u64Max < specParseIntegerInDetectedBase s) :
    (Rmsd.YamlValue.mk (.Scalar s) start stop).as_u64
      = .error (Rmsd.RmsdError.invalid_number s start) := by
  rw [specParseIntegerInDetectedBase] at hover
  by_cases hx : ("0x".toList.isPrefixOf s || "0X".toList.isPrefixOf s) = true
  · have hdb : detectedBase s = (16, s.drop 2) := by
      unfold detectedBase
      rw [if_pos hx]
    rw [hdb] at hne hall hover
    unfold Rmsd.YamlValue.as_u64
    simp only [Rmsd.YamlValue.data]
    have hover2 : u64Max < hornerVal 16 (s.drop 2) := hover
    rw [if_pos hx, u64FromStrRadix,
      uintFromStrRadix_all_digits (s.drop 2) 16 u64Max hne hall,
      if_neg (by omega : ¬hornerVal 16 (s.drop 2) ≤ u64Max)]
    rfl
  · by_cases ho : ("0o".toList.isPrefixOf s || "0O".toList.isPrefixOf s) = true
    · have hdb : detectedBase s = (8, s.drop 2) := by
        unfold detectedBase
        rw [if_neg hx, if_pos ho]
      rw [hdb] at hne hall hover
      unfold Rmsd.YamlValue.as_u64
      simp only [Rmsd.YamlValue.data]
      have hover2 : u64Max < hornerVal 8 (s.drop 2) := hover
      rw [if_neg hx, if_pos ho, u64FromStrRadix,
        uintFromStrRadix_all_digits (s.drop 2) 8 u64Max hne hall,
        if_neg (by omega : ¬hornerVal 8 (s.drop 2) ≤ u64Max)]
      rfl
    · by_cases hb :
          ("0b".toList.isPrefixOf s || "0B".toList.isPrefixOf s) = true
      · have hdb : detectedBase s = (2, s.drop 2) := by
          unfold detectedBase
          rw [if_neg hx, if_neg ho, if_pos hb]
        rw [hdb] at hne hall hover
        unfold Rmsd.YamlValue.as_u64
        simp only [Rmsd.YamlValue.data]
        have hover2 : u64Max < hornerVal 2 (s.drop 2) := hover
        rw [if_neg hx, if_neg ho, if_pos hb, u64FromStrRadix,
          uintFromStrRadix_all_digits (s.drop 2) 2 u64Max hne hall,
          if_neg (by omega : ¬hornerVal 2 (s.drop 2) ≤ u64Max)]
        rfl
      · have hdb : detectedBase s = (10, s) := by
          unfold detectedBase
          rw [if_neg hx, if_neg ho, if_neg hb]
        rw [hdb] at hne hall hover
        unfold Rmsd.YamlValue.as_u64
        simp only [Rmsd.YamlValue.data]
        have hover2 : u64Max < hornerVal 10 s := hover
        rw [if_neg hx, if_neg ho, if_neg hb, u64FromStrRadix,
          uintFromStrRadix_all_digits s 10 u64Max hne hall,
          if_neg (by omega : ¬hornerVal 10 s ≤ u64Max)]
        rfl

/-- C5 (amended): for a scalar with `is_integer` true whose digit part is
non-empty, when the detected-base value fits in `u64`, `as_u64` succeeds
with exactly `parse-integer-in-detected-base(text)`, and `as_u32` returns
the same number iff it fits in `u32`, raising `NumberOverflow` otherwise;
when the value exceeds `u64::MAX`, `as_u64` fails with `InvalidNumber`
(the source's `map_err` folds every parse failure, overflow included, into
`invalid_number`).  The non-emptiness bound is forced by the
counterexample: `is_integer` also accepts `""`/`"0x"`, on which `as_u64`
fails with `InvalidNumber`. -/
theorem c5_integer_coercion_amended (s : List Char)
    (start stop : RmsdPosition)
    (hint : Rmsd.str_is_integer s = true)
    (hne : (detectedBase s).2 ≠ []) :
    (specParseIntegerInDetectedBase s ≤ u64Max →
      (Rmsd.YamlValue.mk (.Scalar s) start stop).as_u64
          = .ok (specParseIntegerInDetectedBase s)
      ∧ ((Rmsd.YamlValue.mk (.Scalar s) start stop).as_u32
            = .ok (specParseIntegerInDetectedBase s)
          ↔ specParseIntegerInDetectedBase s ≤ u32Max)
      ∧ (u32Max < specParseIntegerInDetectedBase s →
          (Rmsd.YamlValue.mk (.Scalar s) start stop).as_u32
            = .error (Rmsd.RmsdError.number_overflow
                ("Specified number ".toList
                  ++ natChars (specParseIntegerInDetectedBase s)
                  ++ " overflow u32::MAX ".toList ++ natChars u32Max) start)))
    ∧ (u64Max < specParseIntegerInDetectedBase s →
        (Rmsd.YamlValue.mk (.Scalar s) start stop).as_u64
          = .error (Rmsd.RmsdError.invalid_number s start)) := by
  constructor
  · intro hfit
    have h64 := c5_as_u64_key s start stop hint hne hfit
      (c5_integer_digits s hint)
    have h32eq : (Rmsd.YamlValue.mk (.Scalar s) start stop).as_u32
        = if specParseIntegerInDetectedBase s > u32Max then
            .error (Rmsd.RmsdError.number_overflow
              ("Specified number ".toList
                ++ natChars (specParseIntegerInDetectedBase s)
                ++ " overflow u32::MAX ".toList ++ natChars u32Max) start)
          else .ok (specParseIntegerInDetectedBase s) := by
      unfold Rmsd.YamlValue.as_u32
      rw [h64]
      rfl
    refine ⟨h64, ?_, ?_⟩
    · constructor
      · intro h32
        by_contra hgt
        rw [h32eq,
          if_pos (by omega : specParseIntegerInDetectedBase s > u32Max)]
          at h32
        exact absurd h32 (by simp)
      · intro hle
        rw [h32eq,
          if_neg (by omega : ¬specParseIntegerInDetectedBase s > u32Max)]
    · intro hgt
      rw [h32eq, if_pos (by omega : specParseIntegerInDetectedBase s > u32Max)]
  · intro hover
    exact c5_as_u64_overflow_key s start stop hne (c5_integer_digits s hint)
      hover

/-- Witness for C5 at the in-range scalar `0x1F` and the overflowing
decimal scalar `18446744073709551616` (`2^64`). -/
theorem c5_integer_coercion_amended_witness :
    Rmsd.str_is_integer "0x1F".toList = true
    ∧ (Rmsd.YamlValue.mk (.Scalar "0x1F".toList) ⟨1, 1⟩ ⟨1, 1⟩).as_u64
        = .ok (specParseIntegerInDetectedBase "0x1F".toList)
    ∧ Rmsd.str_is_integer "18446744073709551616".toList = true
    ∧ (Rmsd.YamlValue.mk (.Scalar "18446744073709551616".toList)
          ⟨1, 1⟩ ⟨1, 1⟩).as_u64
        = .error (Rmsd.RmsdError.invalid_number
            "18446744073709551616".toList ⟨1, 1⟩) :=
  ⟨by decide,
    ((c5_integer_coercion_amended "0x1F".toList ⟨1, 1⟩ ⟨1, 1⟩ (by decide)
      (by decide)).1 (by decide)).1,
    by decide,
    (c5_integer_coercion_amended "18446744073709551616".toList ⟨1, 1⟩ ⟨1, 1⟩
      (by decide) (by decide)).2 (by decide)⟩

/-! ## C7: multiple documents in one stream -/

/-- Once `compose_value` has recorded a first `DocumentStart`, a second one
(after any number of `StreamStart`s) raises `NoSupportMultipleDocuments`
carrying both positions. -/
theorem composeGo_second_doc (b2 : Bool) (p1 p2 : YamlPosition)
    (rest : List YamlEvent) :
    ∀ (mid : List YamlEvent) (fuel : Nat),
      (∀ e ∈ mid, e = YamlEvent.StreamStart) →
      mid.length + 1 ≤ fuel →
      composeValueGo fuel (some p1)
          (mid ++ YamlEvent.DocumentStart b2 p2 :: rest)
        = .error (.err .NoSupportMultipleDocuments p1 p2) := by
  intro mid
  induction mid with
  | nil =>
    intro fuel _ hfuel
    obtain ⟨f, rfl⟩ : ∃ f, fuel = f + 1 := ⟨fuel - 1, by omega⟩
    rfl
  | cons e mid ih =>
    intro fuel hmid hfuel
    obtain ⟨f, rfl⟩ : ∃ f, fuel = f + 1 := ⟨fuel - 1, by omega⟩
    have he : e = YamlEvent.StreamStart := hmid e (by simp)
    subst he
    simp only [List.cons_append, composeValueGo]
    exact ih f (fun x hx => hmid x (by simp [hx])) (by simp at hfuel; omega)

/-- C7 counterexample: a stream containing two `DocumentStart` events — two
complete documents — composes successfully to the first document's value,
because `compose_value` returns at the first scalar and never sees the
second `DocumentStart`; the claim says any stream with more than one
`DocumentStart` fails with `NoSupportMultipleDocuments`. -/
theorem c7_counterexample :
    ((([.StreamStart, .DocumentStart false ⟨1, 1⟩,
        .Scalar none "a".toList ⟨2, 1⟩ ⟨2, 1⟩,
        .DocumentEnd false ⟨2, 1⟩,
        .DocumentStart true ⟨3, 1⟩,
        .Scalar none "b".toList ⟨4, 1⟩ ⟨4, 1⟩,
        .DocumentEnd false ⟨4, 1⟩, .StreamEnd] : List YamlEvent).countP
      (fun e => match e with
        | .DocumentStart _ _ => true
        | _ => false)) = 2)
    ∧ YamlValue.compose 20
        [.StreamStart, .DocumentStart false ⟨1, 1⟩,
          .Scalar none "a".toList ⟨2, 1⟩ ⟨2, 1⟩,
          .DocumentEnd false ⟨2, 1⟩,
          .DocumentStart true ⟨3, 1⟩,
          .Scalar none "b".toList ⟨4, 1⟩ ⟨4, 1⟩,
          .DocumentEnd false ⟨4, 1⟩, .StreamEnd]
        = .ok (.mk (.String "a".toList) ⟨2, 1⟩ ⟨2, 1⟩) :=
  ⟨by decide, rfl⟩

/-- C7 (amended): composing fails with `NoSupportMultipleDocuments` exactly
when `compose_value` meets a second `DocumentStart` before producing a node:
if everything before the first `DocumentStart`, and everything between the
two, is only `StreamStart` events, the error is raised with the two
positions (for any sufficient fuel; each pass consumes one event). -/
theorem c7_amended (pre mid : List YamlEvent) (b1 b2 : Bool)
    (p1 p2 : YamlPosition) (rest : List YamlEvent) (fuel : Nat)
    (hpre : ∀ e ∈ pre, e = YamlEvent.StreamStart)
    (hmid : ∀ e ∈ mid, e = YamlEvent.StreamStart)
    (hfuel : pre.length + mid.length + 2 ≤ fuel) :
    YamlValue.compose fuel
        (pre ++ YamlEvent.DocumentStart b1 p1
          :: (mid ++ YamlEvent.DocumentStart b2 p2 :: rest))
      = .error (.err .NoSupportMultipleDocuments p1 p2) := by
  have key : ∀ (pre : List YamlEvent) (fuel : Nat),
      (∀ e ∈ pre, e = YamlEvent.StreamStart) →
      pre.length + mid.length + 2 ≤ fuel →
      composeValueGo fuel none
          (pre ++ YamlEvent.DocumentStart b1 p1
            :: (mid ++ YamlEvent.DocumentStart b2 p2 :: rest))
        = .error (.err .NoSupportMultipleDocuments p1 p2) := by
    intro pre
    induction pre with
    | nil =>
      intro fuel _ hfuel
      obtain ⟨f, rfl⟩ : ∃ f, fuel = f + 1 := ⟨fuel - 1, by omega⟩
      simp only [List.nil_append, composeValueGo]
      exact composeGo_second_doc b2 p1 p2 rest mid f hmid (by simp at hfuel; omega)
    | cons e pre ih =>
      intro fuel hpre hfuel
      obtain ⟨f, rfl⟩ : ∃ f, fuel = f + 1 := ⟨fuel - 1, by omega⟩
      have he : e = YamlEvent.StreamStart := hpre e (by simp)
      subst he
      simp only [List.cons_append, composeValueGo]
      exact ih f (fun x hx => hpre x (by simp [hx])) (by simp at hfuel; omega)
  unfold YamlValue.compose
  rw [key pre fuel hpre hfuel]

/-- Witness for C7 at a concrete five-event stream. -/
theorem c7_amended_witness :
    (∀ e ∈ ([.StreamStart] : List YamlEvent), e = YamlEvent.StreamStart)
    ∧ YamlValue.compose 5
        ([.StreamStart] ++ YamlEvent.DocumentStart true ⟨1, 1⟩
          :: ([] ++ YamlEvent.DocumentStart true ⟨2, 1⟩
            :: [.Scalar none "x".toList ⟨2, 5⟩ ⟨2, 5⟩]))
        = .error (.err .NoSupportMultipleDocuments ⟨1, 1⟩ ⟨2, 1⟩) :=
  ⟨by decide,
    c7_amended [.StreamStart] [] true true ⟨1, 1⟩ ⟨2, 1⟩
      [.Scalar none "x".toList ⟨2, 5⟩ ⟨2, 5⟩] 5 (by decide) (by decide)
      (by decide)⟩

/- Claim C10: `YamlValueMap::insert` (compose.rs / IndexMap semantics). -/

/-- When the key is already present, insert replaces the stored value in
place, keeping the entry at its original position and leaving every other
entry untouched. -/
theorem insert_replaces_in_place (m1 m2 : YamlValueMap) (k k' v v' : YamlValue)
    (hk : k'.beq k = true) (hm1 : ∀ e ∈ m1, e.1.beq k = false) :
    YamlValueMap.insert (m1 ++ (k', v') :: m2) k v = m1 ++ (k', v) :: m2 := by
  induction m1 with
  | nil => simp [YamlValueMap.insert, hk]
  | cons e m1 ih =>
    have he : e.1.beq k = false := hm1 e (by simp)
    simp only [List.cons_append, YamlValueMap.insert, he, Bool.false_eq_true,
      if_false, List.cons.injEq, true_and]
    exact ih (fun x hx => hm1 x (by simp [hx]))

/-- When the key is absent, insert appends the new entry at the end. -/
theorem insert_appends_when_absent (m : YamlValueMap) (k v : YamlValue)
    (hm : ∀ e ∈ m, e.1.beq k = false) :
    YamlValueMap.insert m k v = m ++ [(k, v)] := by
  induction m with
  | nil => rfl
  | cons e m ih =>
    have he : e.1.beq k = false := hm e (by simp)
    simp only [YamlValueMap.insert, he, Bool.false_eq_true, if_false,
      List.cons_append, List.cons.injEq, true_and]
    exact ih (fun x hx => hm x (by simp [hx]))

/-- Every key of the map after an insert was a key before, or is the
inserted key. -/
theorem insert_mem_keys (m : YamlValueMap) (k v : YamlValue) :
    ∀ b ∈ YamlValueMap.insert m k v, b.1 ∈ m.map Prod.fst ∨ b.1 = k := by
  induction m with
  | nil =>
    intro b hb
    simp only [YamlValueMap.insert, List.mem_singleton] at hb
    subst hb
    simp
  | cons e m ih =>
    intro b hb
    by_cases he : e.1.beq k = true
    · simp only [YamlValueMap.insert, he, if_true] at hb
      rcases List.mem_cons.mp hb with hb | hb
      · subst hb
        simp
      · left
        simp only [List.map_cons, List.mem_cons]
        right
        exact List.mem_map_of_mem Prod.fst hb
    · simp only [YamlValueMap.insert, he, if_false] at hb
      rcases List.mem_cons.mp hb with hb | hb
      · subst hb
        simp
      · rcases ih b hb with h | h
        · left
          simp only [List.map_cons, List.mem_cons]
          exact Or.inr h
        · right
          exact h

/-- Insert preserves pairwise-distinct keys, so the map keeps exactly one
entry per key. -/
theorem insert_preserves_distinct_keys (m : YamlValueMap) (k v : YamlValue)
    (hm : List.Pairwise
      (fun a b : YamlValue × YamlValue => a.1.beq b.1 = false) m) :
    List.Pairwise (fun a b : YamlValue × YamlValue => a.1.beq b.1 = false)
      (YamlValueMap.insert m k v) := by
  induction m with
  | nil => simp [YamlValueMap.insert]
  | cons e m ih =>
    rcases List.pairwise_cons.mp hm with ⟨hhead, htail⟩
    by_cases he : e.1.beq k = true
    · simp only [YamlValueMap.insert, he, if_true]
      exact List.pairwise_cons.mpr ⟨hhead, htail⟩
    · simp only [YamlValueMap.insert, he, if_false]
      refine List.pairwise_cons.mpr ⟨?_, ih htail⟩
      intro b hb
      rcases insert_mem_keys m k v b hb with h | h
      · rcases List.mem_map.mp h with ⟨x, hx, hxe⟩
        rw [← hxe]
        exact hhead x hx
      · rw [h]
        simpa using he

/-- A plain string scalar value, as `compose_value` builds it from a
`YamlEvent::Scalar` with no tag. -/
def scalarValue (x : List Char × YamlPosition × YamlPosition) : YamlValue :=
  .mk (.String x.1) x.2.1 x.2.2

/-- The two scalar events (key, then value) of one mapping entry. -/
def scalarPairEvents
    (pr : (List Char × YamlPosition × YamlPosition)
      × (List Char × YamlPosition × YamlPosition)) : List YamlEvent :=
  [.Scalar none pr.1.1 pr.1.2.1 pr.1.2.2, .Scalar none pr.2.1 pr.2.2.1 pr.2.2.2]

/-- Composing a mapping from any list of scalar key/value event pairs —
duplicate keys included — never errors: it returns the left fold of
`YamlValueMap.insert` over the pairs. -/
theorem composeMap_scalar_pairs
    (pend : YamlPosition) (rest : List YamlEvent) :
    ∀ (pairs : List ((List Char × YamlPosition × YamlPosition)
        × (List Char × YamlPosition × YamlPosition)))
      (fuel : Nat) (pstart : YamlPosition) (acc : YamlValueMap),
      2 * pairs.length + 1 ≤ fuel →
      composeMapGo fuel
          ((pairs.flatMap scalarPairEvents) ++ YamlEvent.MapEnd pend :: rest)
          pstart acc none
        = .ok (.mk (.Map (pairs.foldl
            (fun m pr =>
              YamlValueMap.insert m (scalarValue pr.1) (scalarValue pr.2))
            acc)) pstart pend, rest) := by
  intro pairs
  induction pairs with
  | nil =>
    intro fuel pstart acc hfuel
    obtain ⟨f, rfl⟩ : ∃ f, fuel = f + 1 := ⟨fuel - 1, by omega⟩
    rfl
  | cons pr pairs ih =>
    intro fuel pstart acc hfuel
    simp only [List.length_cons] at hfuel
    obtain ⟨g, rfl⟩ : ∃ g, fuel = g + 3 := ⟨fuel - 3, by omega⟩
    exact ih (g + 1) pstart _ (by omega)

/-- C10: composing a mapping whose event stream repeats a key never raises
an error. `YamlValueMap::insert` replaces the stored value in place at the
first entry whose key compares equal (keeping that key's original position
and every other entry), appends when the key is absent, preserves
pairwise-distinct keys, and `compose` folds it over the entries, so the
last value for a repeated key wins. -/
theorem c10_duplicate_map_keys_replace_in_place :
    (∀ (m1 m2 : YamlValueMap) (k k' v v' : YamlValue),
      k'.beq k = true → (∀ e ∈ m1, e.1.beq k = false) →
      YamlValueMap.insert (m1 ++ (k', v') :: m2) k v = m1 ++ (k', v) :: m2)
    ∧ (∀ (m : YamlValueMap) (k v : YamlValue),
        (∀ e ∈ m, e.1.beq k = false) →
        YamlValueMap.insert m k v = m ++ [(k, v)])
    ∧ (∀ (m : YamlValueMap) (k v : YamlValue),
        List.Pairwise
          (fun a b : YamlValue × YamlValue => a.1.beq b.1 = false) m →
        List.Pairwise
          (fun a b : YamlValue × YamlValue => a.1.beq b.1 = false)
          (YamlValueMap.insert m k v))
    ∧ (∀ (pend : YamlPosition) (rest : List YamlEvent)
        (pairs : List ((List Char × YamlPosition × YamlPosition)
          × (List Char × YamlPosition × YamlPosition)))
        (fuel : Nat) (pstart : YamlPosition) (acc : YamlValueMap),
        2 * pairs.length + 1 ≤ fuel →
        composeMapGo fuel
            ((pairs.flatMap scalarPairEvents)
              ++ YamlEvent.MapEnd pend :: rest) pstart acc none
          = .ok (.mk (.Map (pairs.foldl
              (fun m pr =>
                YamlValueMap.insert m (scalarValue pr.1) (scalarValue pr.2))
              acc)) pstart pend, rest)) :=
  ⟨insert_replaces_in_place, insert_appends_when_absent,
    insert_preserves_distinct_keys,
    fun pend rest pairs fuel pstart acc h =>
      composeMap_scalar_pairs pend rest pairs fuel pstart acc h⟩

/-- Witness for C10: a two-entry stream repeating the key `k` composes
without error to the fold of insert, in which `k` holds its last value. -/
theorem c10_witness :
    composeMapGo 7
        ((([(("k".toList, (⟨1, 1⟩ : YamlPosition), (⟨1, 1⟩ : YamlPosition)),
              ("v1".toList, (⟨1, 4⟩ : YamlPosition), (⟨1, 5⟩ : YamlPosition))),
            (("k".toList, (⟨1, 1⟩ : YamlPosition), (⟨1, 1⟩ : YamlPosition)),
              ("v2".toList, (⟨2, 4⟩ : YamlPosition),
                (⟨2, 5⟩ : YamlPosition)))]).flatMap scalarPairEvents)
          ++ YamlEvent.MapEnd ⟨2, 5⟩ :: []) ⟨1, 1⟩ [] none
      = .ok (.mk (.Map
          (([(("k".toList, (⟨1, 1⟩ : YamlPosition), (⟨1, 1⟩ : YamlPosition)),
              ("v1".toList, (⟨1, 4⟩ : YamlPosition), (⟨1, 5⟩ : YamlPosition))),
            (("k".toList, (⟨1, 1⟩ : YamlPosition), (⟨1, 1⟩ : YamlPosition)),
              ("v2".toList, (⟨2, 4⟩ : YamlPosition),
                (⟨2, 5⟩ : YamlPosition)))]).foldl
            (fun m pr =>
              YamlValueMap.insert m (scalarValue pr.1) (scalarValue pr.2))
            [])) ⟨1, 1⟩ ⟨2, 5⟩, []) :=
  c10_duplicate_map_keys_replace_in_place.2.2.2 ⟨2, 5⟩ [] _ 7 ⟨1, 1⟩ []
    (by decide)


/-- Every digit `natDigitsAux` produces is below 10. -/
theorem natDigitsAux_lt : ∀ fuel n d, d ∈ natDigitsAux fuel n → d < 10
  | 0, _, _, h => by simp [natDigitsAux] at h
  | _ + 1, 0, _, h => by simp [natDigitsAux] at h
  | fuel + 1, n + 1, d, h => by
    simp only [natDigitsAux, List.mem_cons] at h
    rcases h with h | h
    · omega
    · exact natDigitsAux_lt fuel ((n + 1) / 10) d h

/-- The number a least-significant-first digit list denotes. -/
def lsbVal : List Nat → Nat
  | [] => 0
  | d :: r => d + 10 * lsbVal r

/-- `natDigitsAux` renders exactly its input once the fuel suffices. -/
theorem natDigitsAux_val : ∀ fuel n, n ≤ fuel →
    lsbVal (natDigitsAux fuel n) = n
  | 0, 0, _ => rfl
  | 0, _ + 1, h => absurd h (by omega)
  | _ + 1, 0, _ => rfl
  | fuel + 1, n + 1, h => by
    have hdiv : (n + 1) / 10 ≤ fuel := by omega
    simp only [natDigitsAux, lsbVal, natDigitsAux_val fuel ((n + 1) / 10) hdiv]
    omega

/-- Horner evaluation of a reversed digit list. -/
theorem foldl_horner_reverse : ∀ (L : List Nat) (acc : Nat),
    L.reverse.foldl (fun a d => a * 10 + d) acc
      = acc * 10 ^ L.length + lsbVal L
  | [], acc => by simp [lsbVal]
  | d :: L, acc => by
    simp only [List.reverse_cons, List.foldl_append, List.foldl_cons,
      List.foldl_nil, foldl_horner_reverse L acc, lsbVal, List.length_cons]
    ring

/-- `char::to_digit` undoes `Nat.digitChar` on decimal digits. -/
theorem charToDigit_digitChar (d : Nat) (h : d < 10) :
    charToDigit (Nat.digitChar d) 10 = some d := by
  interval_cases d <;> decide

theorem foldl_digits_map : ∀ (L : List Nat) (acc : Nat), (∀ d ∈ L, d < 10) →
    L.foldl
        (fun a d => a * 10 + ((charToDigit (Nat.digitChar d) 10).getD 0)) acc
      = L.foldl (fun a d => a * 10 + d) acc
  | [], _, _ => rfl
  | d :: L, acc, h => by
    simp only [List.foldl_cons, charToDigit_digitChar d (h d (by simp)),
      Option.getD_some]
    exact foldl_digits_map L _ (fun x hx => h x (by simp [hx]))

/-- The decimal rendering evaluates back to the number. -/
theorem hornerVal_natChars (n : Nat) : hornerVal 10 (natChars n) = n := by
  by_cases h : n = 0
  · subst h
    decide
  · have hmem : ∀ d ∈ (natDigits n).reverse, d < 10 := fun d hd =>
      natDigitsAux_lt n n d (List.mem_reverse.mp hd)
    unfold natChars hornerVal
    rw [if_neg h, List.foldl_map, foldl_digits_map _ _ hmem,
      foldl_horner_reverse]
    simp [natDigits, natDigitsAux_val n n (le_refl n)]

theorem natDigits_ne_nil (n : Nat) (h : n ≠ 0) : natDigits n ≠ [] := by
  obtain ⟨m, rfl⟩ : ∃ m, n = m + 1 := ⟨n - 1, by omega⟩
  simp [natDigits, natDigitsAux]

/-- Every character of the decimal rendering is a decimal digit. -/
theorem natChars_digits (n : Nat) :
    ∀ c ∈ natChars n, (charToDigit c 10).isSome = true := by
  intro c hc
  unfold natChars at hc
  by_cases h : n = 0
  · rw [if_pos h] at hc
    simp only [List.mem_singleton] at hc
    subst hc
    decide
  · rw [if_neg h] at hc
    rcases List.mem_map.mp hc with ⟨d, hd, rfl⟩
    rw [charToDigit_digitChar d (natDigitsAux_lt n n d (List.mem_reverse.mp hd))]
    rfl

theorem natChars_ne_nil (n : Nat) : natChars n ≠ [] := by
  unfold natChars
  by_cases h : n = 0
  · rw [if_pos h]
    exact fun hc => by cases hc
  · rw [if_neg h]
    intro hc
    exact natDigits_ne_nil n h (by simpa using hc)

/-- Rust renders a `u64` and parses it back to the same value. -/
theorem u64FromStrRadix_natChars (n : Nat) (h : n ≤ u64Max) :
    u64FromStrRadix (natChars n) 10 = some n := by
  unfold u64FromStrRadix
  rw [uintFromStrRadix_all_digits _ _ _ (natChars_ne_nil n) (natChars_digits n),
    hornerVal_natChars, if_pos h]

theorem natChars_no_space (n : Nat) : ' ' ∉ natChars n := fun hc =>
  absurd (natChars_digits n ' ' hc) (by decide)

theorem natChars_no_colon (n : Nat) : ':' ∉ natChars n := fun hc =>
  absurd (natChars_digits n ':' hc) (by decide)

/-- `splitOn` peels off a separator-free prefix. -/
theorem splitOn_sep_append (A rest : List Char) (h : ' ' ∉ A) :
    (A ++ ' ' :: rest).splitOn ' ' = A :: rest.splitOn ' ' := by
  induction A with
  | nil => simp [List.splitOn, List.splitOnP_cons]
  | cons c A ih =>
    simp only [List.mem_cons, not_or] at h
    have hc : (c == ' ') = false :=
      beq_eq_false_iff_ne.mpr (fun he => h.1 he.symm)
    have ihA := ih h.2
    simp only [List.splitOn, List.cons_append, List.splitOnP_cons, hc,
      Bool.false_eq_true, if_false] at ihA ⊢
    rw [ihA]
    rfl

/-- Splitting the displayed position (with the trailing space the error
parser leaves on it) on spaces. -/
theorem posDisplay_splitOn (p : RmsdPosition) (h : p ≠ RmsdPosition.EOF) :
    (RmsdPosition.display p ++ [' ']).splitOn ' '
      = ["line".toList, natChars p.line, "column".toList, natChars p.column,
          []] := by
  unfold RmsdPosition.display
  rw [if_neg h]
  show ("line".toList ++ ' ' ::
      ((natChars p.line ++ " column ".toList ++ natChars p.column)
        ++ [' '])).splitOn ' ' = _
  rw [splitOn_sep_append _ _ (by decide)]
  rw [List.append_assoc, List.append_assoc]
  show _ :: (natChars p.line ++ ' ' ::
      ("column".toList ++ ' ' :: (natChars p.column ++ ' ' :: []))).splitOn ' '
    = _
  rw [splitOn_sep_append _ _ (natChars_no_space p.line)]
  rw [splitOn_sep_append _ _ (by decide)]
  rw [splitOn_sep_append _ _ (natChars_no_space p.column)]
  rfl

/-- Parsing the displayed position (plus the trailing space `split_once`
leaves) recovers the position, when it is not the `EOF` sentinel and fits
in `u64`. -/
theorem tryFrom_posDisplay (p : RmsdPosition) (hp : p ≠ RmsdPosition.EOF)
    (hl : p.line ≤ u64Max) (hc : p.column ≤ u64Max) :
    RmsdPosition.tryFrom (RmsdPosition.display p ++ [' ']) = some p := by
  unfold RmsdPosition.tryFrom
  simp only [posDisplay_splitOn p hp, List.take_succ_cons, List.take_zero,
    List.length_cons, List.length_nil]
  rw [if_pos (by simp)]
  simp only [List.getElem?_cons_zero, List.getElem?_cons_succ,
    Option.getD_some]
  rw [u64FromStrRadix_natChars p.line hl, u64FromStrRadix_natChars p.column hc]
  rfl

/-- No error-kind name followed by the trailing space that `split_once`
leaves parses back; `unwrap_or_default` then yields `Bug`. -/
theorem errorKind_tryFrom_space (k : Rmsd.ErrorKind) :
    Rmsd.ErrorKind.tryFrom (k.display ++ [' ']) = none := by
  cases k <;> decide

/-- `splitOnceGo` fires as soon as the separator is the immediate prefix. -/
theorem splitOnceGo_self (sep B acc : List Char) :
    splitOnceGo sep acc (sep ++ B) = some (acc.reverse, B) := by
  cases hsb : sep ++ B with
  | nil =>
    rcases List.append_eq_nil.mp hsb with ⟨h1, h2⟩
    subst h1
    subst h2
    rfl
  | cons c r =>
    have hpre : sep.isPrefixOf (c :: r) = true := by
      rw [← hsb]
      exact List.isPrefixOf_iff_prefix.mpr (List.prefix_append sep B)
    unfold splitOnceGo
    rw [if_pos hpre, ← hsb, List.drop_left]

/-- `splitOnceGo` splits at the first occurrence of the separator: if no
occurrence starts inside `A`, the split lands exactly after `A`. -/
theorem splitOnceGo_first (sep B : List Char) :
    ∀ (A acc : List Char),
      (∀ i, i < A.length → sep.isPrefixOf (A.drop i ++ sep ++ B) = false) →
      splitOnceGo sep acc (A ++ sep ++ B) = some (acc.reverse ++ A, B)
  | [], acc, _ => by
    simp only [List.nil_append, List.append_nil]
    exact splitOnceGo_self sep B acc
  | c :: A, acc, h => by
    have h0 : sep.isPrefixOf (c :: (A ++ sep ++ B)) = false := by
      have := h 0 (by simp)
      simpa using this
    have hrest : ∀ i, i < A.length →
        sep.isPrefixOf (A.drop i ++ sep ++ B) = false := by
      intro i hi
      have := h (i + 1) (by simp; omega)
      simpa [List.drop_succ_cons] using this
    show splitOnceGo sep acc (c :: (A ++ sep ++ B)) = _
    unfold splitOnceGo
    rw [if_neg (by simp only [h0]; exact Bool.false_ne_true),
      splitOnceGo_first sep B A (c :: acc) hrest]
    simp

/-- `str::split_once` splits at the first occurrence of the separator. -/
theorem splitOnce_first (A sep B : List Char)
    (h : ∀ i, i < A.length → sep.isPrefixOf (A.drop i ++ sep ++ B) = false) :
    splitOnce (A ++ sep ++ B) sep = some (A, B) := by
  unfold splitOnce
  rw [splitOnceGo_first sep B A [] h]
  rfl

/-- A prefix agrees with the listed element at every index it covers. -/
theorem isPrefixOf_getElem (sep l : List Char) (j : Nat) (hj : j < sep.length)
    (h : sep.isPrefixOf l = true) : l[j]? = sep[j]? := by
  rcases List.isPrefixOf_iff_prefix.mp h with ⟨t, rfl⟩
  rw [List.getElem?_append_left hj]

/-- The displayed position never contains a colon. -/
theorem posDisplay_no_colon (p : RmsdPosition) :
    ':' ∉ RmsdPosition.display p := by
  unfold RmsdPosition.display
  by_cases h : p = RmsdPosition.EOF
  · rw [if_pos h]
    decide
  · rw [if_neg h]
    intro hc
    simp only [List.mem_append] at hc
    rcases hc with ((hc | hc) | hc) | hc
    · exact absurd hc (by decide)
    · exact natChars_no_colon p.line hc
    · exact absurd hc (by decide)
    · exact natChars_no_colon p.column hc

/-- No displayed error-kind name contains a colon. -/
theorem kindDisplay_no_colon (k : Rmsd.ErrorKind) : ':' ∉ k.display := by
  cases k <;> decide

/-- In `P ++ " kind: " ++ K ++ " "` with colon-free `P` and `K`, the only
colon sits right after `kind`. -/
theorem kindSegment_colon (P K : List Char) (hP : ':' ∉ P) (hK : ':' ∉ K)
    (j : Nat)
    (h : (P ++ " kind: ".toList ++ K ++ [' '])[j]? = some ':') :
    j = P.length + 5 := by
  rw [List.append_assoc, List.append_assoc, List.getElem?_append] at h
  by_cases hj : j < P.length
  · rw [if_pos hj] at h
    exact absurd (List.getElem?_mem h) hP
  · rw [if_neg hj, List.getElem?_append] at h
    by_cases hm : j - P.length < (" kind: ".toList).length
    · rw [if_pos hm] at h
      have hm7 : j - P.length < 7 := hm
      obtain ⟨m, hgen⟩ : ∃ m, j - P.length = m := ⟨_, rfl⟩
      rw [hgen] at h
      rw [hgen] at hm7
      interval_cases m <;> first
        | exact absurd h (by decide)
        | omega
    · rw [if_neg hm] at h
      have := List.getElem?_mem h
      rcases List.mem_append.mp this with h' | h'
      · exact absurd h' hK
      · simp at h'

/-- No occurrence of `"kind: "` starts inside a colon-free prefix. -/
theorem no_kind_occurrence (A B : List Char) (hA : ':' ∉ A) :
    ∀ i, i < A.length →
      ("kind: ".toList).isPrefixOf (A.drop i ++ "kind: ".toList ++ B)
        = false := by
  intro i hi
  by_contra hcon
  rw [Bool.not_eq_false] at hcon
  have h4 : (A.drop i ++ "kind: ".toList ++ B)[4]? = some ':' := by
    rw [isPrefixOf_getElem _ _ 4 (by decide) hcon]
    rfl
  simp only [List.append_assoc, List.getElem?_append, List.length_drop,
    List.getElem?_drop] at h4
  by_cases hc : 4 < A.length - i
  · rw [if_pos hc] at h4
    exact absurd (List.getElem?_mem h4) hA
  · rw [if_neg hc] at h4
    rw [if_pos (by
      show 4 - (A.length - i) < ("kind: ".toList).length
      have h6 : ("kind: ".toList).length = 6 := rfl
      omega : 4 - (A.length - i) < ("kind: ".toList).length)] at h4
    obtain ⟨m, hgen⟩ : ∃ m, 4 - (A.length - i) = m := ⟨_, rfl⟩
    rw [hgen] at h4
    have hm3 : m ≤ 3 := by omega
    interval_cases m <;> exact absurd h4 (by decide)

/-- If every colon in `A` is immediately preceded by `d`, no occurrence of
`"error: "` starts inside `A`. -/
theorem no_error_occurrence_of_census (A B : List Char)
    (hcensus : ∀ j, A[j]? = some ':' → A[j - 1]? = some 'd' ∧ 1 ≤ j) :
    ∀ i, i < A.length →
      ("error: ".toList).isPrefixOf (A.drop i ++ "error: ".toList ++ B)
        = false := by
  intro i hi
  by_contra hcon
  rw [Bool.not_eq_false] at hcon
  have h5 : (A.drop i ++ "error: ".toList ++ B)[5]? = some ':' := by
    rw [isPrefixOf_getElem _ _ 5 (by decide) hcon]
    rfl
  have h4 : (A.drop i ++ "error: ".toList ++ B)[4]? = some 'r' := by
    rw [isPrefixOf_getElem _ _ 4 (by decide) hcon]
    rfl
  simp only [List.append_assoc, List.getElem?_append, List.length_drop,
    List.getElem?_drop] at h5 h4
  by_cases hc : 5 < A.length - i
  · rw [if_pos hc] at h5
    rcases hcensus (i + 5) h5 with ⟨hd, _⟩
    rw [show i + 5 - 1 = i + 4 from rfl] at hd
    rw [if_pos (by omega)] at h4
    rw [h4] at hd
    simp at hd
  · rw [if_neg hc] at h5
    rw [if_pos (by
      have h7 : ("error: ".toList).length = 7 := rfl
      omega : 5 - (A.length - i) < ("error: ".toList).length)] at h5
    obtain ⟨m, hgen⟩ : ∃ m, 5 - (A.length - i) = m := ⟨_, rfl⟩
    rw [hgen] at h5
    have hm4 : m ≤ 4 := by omega
    interval_cases m <;> exact absurd h5 (by decide)

/-- In the displayed error text's head segment, the only colon follows
`kind`, and `d` precedes it. -/
theorem kindSegment_census (P K : List Char) (hP : ':' ∉ P) (hK : ':' ∉ K) :
    ∀ j, (P ++ " kind: ".toList ++ K ++ [' '])[j]? = some ':' →
      (P ++ " kind: ".toList ++ K ++ [' '])[j - 1]? = some 'd' ∧ 1 ≤ j := by
  intro j h
  have hj := kindSegment_colon P K hP hK j h
  subst hj
  refine ⟨?_, by omega⟩
  rw [show P.length + 5 - 1 = P.length + 4 from by omega, List.append_assoc,
    List.append_assoc, List.getElem?_append, if_neg (by omega)]
  rw [show P.length + 4 - P.length = 4 from by omega]
  rw [List.getElem?_append_left (by decide : 4 < (" kind: ".toList).length)]
  rfl

namespace Rmsd

/-- `RmsdError::custom` on a message both of whose splits succeed. -/
theorem custom_eq (m A B pk kd : List Char)
    (h1 : splitOnce m "error: ".toList = some (A, B))
    (h2 : splitOnce A "kind: ".toList = some (pk, kd)) :
    RmsdError.custom m =
      { pos := (RmsdPosition.tryFrom pk).getD RmsdPosition.rustDefault
        msg := B
        kind := (ErrorKind.tryFrom kd).getD ErrorKind.rustDefault } := by
  unfold RmsdError.custom
  simp only [h1, h2]

/-- Feeding an error's displayed text back through `RmsdError::custom`
recovers the message and the position but resets the kind to `Bug`. -/
theorem custom_display_eq (kind : ErrorKind) (msg : List Char)
    (pos : RmsdPosition) (hp : pos ≠ RmsdPosition.EOF)
    (hl : pos.line ≤ u64Max) (hc : pos.column ≤ u64Max) :
    RmsdError.custom (RmsdError.display ⟨kind, msg, pos⟩)
      = ⟨.Bug, msg, pos⟩ := by
  have hshape : RmsdError.display ⟨kind, msg, pos⟩
      = (pos.display ++ " kind: ".toList ++ kind.display ++ [' '])
        ++ "error: ".toList ++ msg := by
    unfold RmsdError.display
    simp only [List.append_assoc]
    rfl
  have s1 : splitOnce (RmsdError.display ⟨kind, msg, pos⟩) "error: ".toList
      = some (pos.display ++ " kind: ".toList ++ kind.display ++ [' '],
          msg) := by
    rw [hshape]
    exact splitOnce_first _ _ _
      (no_error_occurrence_of_census _ _
        (kindSegment_census pos.display kind.display
          (posDisplay_no_colon pos) (kindDisplay_no_colon kind)))
  have s2 : splitOnce
      (pos.display ++ " kind: ".toList ++ kind.display ++ [' '])
      "kind: ".toList
      = some (pos.display ++ [' '], kind.display ++ [' ']) := by
    have hre : pos.display ++ " kind: ".toList ++ kind.display ++ [' ']
        = (pos.display ++ [' ']) ++ "kind: ".toList
          ++ (kind.display ++ [' ']) := by
      simp only [List.append_assoc]
      rfl
    rw [hre]
    refine splitOnce_first _ _ _ (no_kind_occurrence _ _ ?_)
    intro hmem
    rcases List.mem_append.mp hmem with h' | h'
    · exact posDisplay_no_colon pos h'
    · simp at h'
  rw [custom_eq _ _ _ _ _ s1 s2, tryFrom_posDisplay pos hp hl hc,
    errorKind_tryFrom_space kind]
  rfl

end Rmsd

/-- Counterexample to C6 as stated: the displayed text carries one single
position (`line 3 column 7`), not a `<start>:<end>` pair, and parsing it
back does not reconstruct the original error — the kind is lost. -/
theorem c6_counterexample :
    Rmsd.RmsdError.display ⟨.InvalidBool, "not a bool".toList, ⟨3, 7⟩⟩
      = "line 3 column 7 kind: invalid_bool error: not a bool".toList
    ∧ Rmsd.RmsdError.custom
        (Rmsd.RmsdError.display ⟨.InvalidBool, "not a bool".toList, ⟨3, 7⟩⟩)
      ≠ ⟨.InvalidBool, "not a bool".toList, ⟨3, 7⟩⟩ :=
  ⟨by decide, by decide⟩

/-- C6 (amended): an error's displayed text is
`"<pos> kind: <kind> error: <message>"`, carrying one single position, and
feeding that text back through `RmsdError::custom` — the parser the external
binding funnels stringified errors through — re-attaches the message and the
position, but resets the kind to `Bug`: `split_once("error: ")` leaves a
trailing space on the kind name, so no kind round-trips. -/
theorem c6_error_display_roundtrip (kind : Rmsd.ErrorKind) (msg : List Char)
    (pos : RmsdPosition) (hp : pos ≠ RmsdPosition.EOF)
    (hl : pos.line ≤ u64Max) (hc : pos.column ≤ u64Max) :
    Rmsd.RmsdError.display ⟨kind, msg, pos⟩
      = pos.display ++ " kind: ".toList ++ kind.display ++ " error: ".toList
        ++ msg
    ∧ Rmsd.RmsdError.custom (Rmsd.RmsdError.display ⟨kind, msg, pos⟩)
      = ⟨.Bug, msg, pos⟩ :=
  ⟨rfl, Rmsd.custom_display_eq kind msg pos hp hl hc⟩

/-- Witness for C6 at a concrete error value. -/
theorem c6_error_display_roundtrip_witness :
    Rmsd.RmsdError.custom (Rmsd.RmsdError.display
        ⟨.UnfinishedQuote, "missing quote".toList, ⟨3, 7⟩⟩)
      = ⟨.Bug, "missing quote".toList, ⟨3, 7⟩⟩ :=
  (c6_error_display_roundtrip .UnfinishedQuote "missing quote".toList
    ⟨3, 7⟩ (by decide) (by decide) (by decide)).2

/-- Classifier for `SequenceStart` events. -/
def YamlEvent.isSeqStart : YamlEvent → Bool
  | .SequenceStart _ _ => true
  | _ => false

/-- Classifier for `SequenceEnd` events. -/
def YamlEvent.isSeqEnd : YamlEvent → Bool
  | .SequenceEnd _ => true
  | _ => false

/-- Classifier for `MapStart` events. -/
def YamlEvent.isMapStart : YamlEvent → Bool
  | .MapStart _ _ => true
  | _ => false

/-- Classifier for `MapEnd` events. -/
def YamlEvent.isMapEnd : YamlEvent → Bool
  | .MapEnd _ => true
  | _ => false

/-- Classifier for the two stream delimiter events. -/
def YamlEvent.isStream : YamlEvent → Bool
  | .StreamStart => true
  | .StreamEnd => true
  | _ => false

/-- A well-balanced event list: as many `SequenceStart` as `SequenceEnd`
events and as many `MapStart` as `MapEnd` events. -/
def balancedEvents (l : List YamlEvent) : Prop :=
  l.countP YamlEvent.isSeqStart = l.countP YamlEvent.isSeqEnd
    ∧ l.countP YamlEvent.isMapStart = l.countP YamlEvent.isMapEnd

/-- What the handlers inside a document may append: a balanced run of
events with no stream delimiters. -/
def innerEvents (l : List YamlEvent) : Prop :=
  balancedEvents l ∧ ∀ e ∈ l, e.isStream = false

/-- The events a parser step may append to those already collected. -/
def eventsExtend (p q : YamlParser) : Prop :=
  ∃ Δ, q.events = p.events ++ Δ ∧ innerEvents Δ

theorem innerEvents_nil : innerEvents [] :=
  ⟨⟨rfl, rfl⟩, fun _ h => absurd h (List.not_mem_nil _)⟩

theorem eventsExtend_refl (p : YamlParser) : eventsExtend p p :=
  ⟨[], by simp, innerEvents_nil⟩

theorem innerEvents_append {a b : List YamlEvent}
    (ha : innerEvents a) (hb : innerEvents b) : innerEvents (a ++ b) := by
  refine ⟨⟨?_, ?_⟩, ?_⟩
  · simp only [List.countP_append, ha.1.1, hb.1.1]
  · simp only [List.countP_append, ha.1.2, hb.1.2]
  · intro e he
    rcases List.mem_append.mp he with h | h
    · exact ha.2 e h
    · exact hb.2 e h

theorem eventsExtend_trans {p q r : YamlParser}
    (h1 : eventsExtend p q) (h2 : eventsExtend q r) : eventsExtend p r := by
  rcases h1 with ⟨d1, he1, hi1⟩
  rcases h2 with ⟨d2, he2, hi2⟩
  exact ⟨d1 ++ d2, by rw [he2, he1, List.append_assoc],
    innerEvents_append hi1 hi2⟩

/-- A single `Scalar` event is a legal inner run. -/
theorem innerEvents_scalar (t : Option (List Char)) (v : List Char)
    (a b : YamlPosition) : innerEvents [.Scalar t v a b] := by
  refine ⟨⟨rfl, rfl⟩, ?_⟩
  intro e he
  simp only [List.mem_singleton] at he
  subst he
  rfl

/-- A `DocumentStart` event is a legal inner run. -/
theorem innerEvents_docStart (b : Bool) (q : YamlPosition) :
    innerEvents [.DocumentStart b q] := by
  refine ⟨⟨rfl, rfl⟩, ?_⟩
  intro e he
  simp only [List.mem_singleton] at he
  subst he
  rfl

/-- A `DocumentEnd` event is a legal inner run. -/
theorem innerEvents_docEnd (b : Bool) (q : YamlPosition) :
    innerEvents [.DocumentEnd b q] := by
  refine ⟨⟨rfl, rfl⟩, ?_⟩
  intro e he
  simp only [List.mem_singleton] at he
  subst he
  rfl

/-- Wrapping a balanced inner run in `SequenceStart`/`SequenceEnd` keeps it
balanced. -/
theorem innerEvents_seqWrap {Δ : List YamlEvent} (h : innerEvents Δ)
    (t : Option (List Char)) (a b : YamlPosition) :
    innerEvents (.SequenceStart t a :: (Δ ++ [.SequenceEnd b])) := by
  refine ⟨⟨?_, ?_⟩, ?_⟩
  · simp only [List.countP_cons, List.countP_append, h.1.1]
    rfl
  · simp only [List.countP_cons, List.countP_append, h.1.2]
    rfl
  · intro e he
    rcases List.mem_cons.mp he with rfl | he
    · rfl
    rcases List.mem_append.mp he with he | he
    · exact h.2 e he
    · simp only [List.mem_singleton] at he
      subst he
      rfl

/-- Wrapping a balanced inner run in `MapStart`/`MapEnd` keeps it
balanced. -/
theorem innerEvents_mapWrap {Δ : List YamlEvent} (h : innerEvents Δ)
    (t : Option (List Char)) (a b : YamlPosition) :
    innerEvents (.MapStart t a :: (Δ ++ [.MapEnd b])) := by
  refine ⟨⟨?_, ?_⟩, ?_⟩
  · simp only [List.countP_cons, List.countP_append, h.1.1]
    rfl
  · simp only [List.countP_cons, List.countP_append, h.1.2]
    rfl
  · intro e he
    rcases List.mem_cons.mp he with rfl | he
    · rfl
    rcases List.mem_append.mp he with he | he
    · exact h.2 e he
    · simp only [List.mem_singleton] at he
      subst he
      rfl

theorem push_event_events (p : YamlParser) (e : YamlEvent) :
    (p.push_event e).events = p.events ++ [e] := rfl

theorem push_state_events (p : YamlParser) (s : YamlState) :
    (p.push_state s).events = p.events := rfl

theorem pop_state_events (p : YamlParser) :
    (p.pop_state).events = p.events := rfl

/-- The exit path of `handle_plain_scalar` appends exactly one scalar
event. -/
theorem plainFinish_extend (p : YamlParser) (t : Option (List Char))
    (sp : YamlPosition) (acc : List (List Char)) :
    eventsExtend p (plainFinish p t sp acc) := by
  unfold plainFinish
  exact ⟨[_], rfl, innerEvents_scalar _ _ _ _⟩

set_option maxHeartbeats 2000000 in
/-- The plain-scalar loop appends only a balanced, stream-free run. -/
theorem handlePlainGo_extend : ∀ fuel p a b tag sp acc fl p',
    handlePlainGo fuel p a b tag sp acc fl = .ok p' → eventsExtend p p'
  | 0, p, a, b, tag, sp, acc, fl, p', h => by simp [handlePlainGo] at h
  | fuel + 1, p, a, b, tag, sp, acc, fl, p', h => by
    simp only [handlePlainGo] at h
    repeat' split at h
    all_goals first
      | (cases h; exact plainFinish_extend _ _ _ _)
      | (cases h.symm; exact plainFinish_extend _ _ _ _)
      | (cases h; exact ⟨[_], rfl, innerEvents_scalar _ _ _ _⟩)
      | (cases h.symm; exact ⟨[_], rfl, innerEvents_scalar _ _ _ _⟩)
      | (have hh := handlePlainGo_extend fuel _ _ _ _ _ _ _ _ h; exact hh)
      | (have hh := handlePlainGo_extend fuel _ _ _ _ _ _ _ _ h.symm
         exact hh)
      | cases h

/-- `handle_plain_scalar` appends only a balanced, stream-free run. -/
theorem handlePlainScalar_extend (p : YamlParser) (a b : Nat)
    (tag : Option (List Char)) (p' : YamlParser)
    (h : handlePlainScalar p a b tag = .ok p') : eventsExtend p p' :=
  handlePlainGo_extend _ _ _ _ _ _ _ _ _ h

set_option maxHeartbeats 1000000 in
/-- The literal-block content loop never touches the event list. -/
theorem handleLiteralGo_events : ∀ fuel p d ret ret' p',
    handleLiteralGo fuel p d ret = .ok (ret', p') → p'.events = p.events
  | 0, p, d, ret, ret', p', h => by simp [handleLiteralGo] at h
  | fuel + 1, p, d, ret, ret', p', h => by
    simp only [handleLiteralGo] at h
    repeat' split at h
    all_goals first
      | (cases h; rfl)
      | (cases h.symm; rfl)
      | (have hh := handleLiteralGo_events fuel _ _ _ _ _ h; exact hh)
      | (have hh := handleLiteralGo_events fuel _ _ _ _ _ h.symm
         exact hh)
      | cases h

/-- Pushing one scalar event onto a parser whose events match `p`'s. -/
theorem extend_push_scalar (p q : YamlParser) (he : q.events = p.events)
    (t : Option (List Char)) (v : List Char) (a b : YamlPosition) :
    eventsExtend p (q.push_event (.Scalar t v a b)) :=
  ⟨[.Scalar t v a b], by rw [push_event_events, he],
    innerEvents_scalar _ _ _ _⟩

set_option maxHeartbeats 1000000 in
/-- `handle_literal_block_scalar` appends exactly one scalar event. -/
theorem handleLiteralBlockScalar_extend (p : YamlParser) (a b : Nat)
    (tag : Option (List Char)) (p' : YamlParser)
    (h : handleLiteralBlockScalar p a b tag = .ok p') : eventsExtend p p' := by
  simp only [handleLiteralBlockScalar] at h
  repeat' split at h
  all_goals first
    | (cases h; exact ⟨[_], rfl, innerEvents_scalar _ _ _ _⟩)
    | (cases h.symm; exact ⟨[_], rfl, innerEvents_scalar _ _ _ _⟩)
    | (cases h
       rename (handleLiteralGo _ _ _ _ = _) => hLit
       have he := handleLiteralGo_events _ _ _ _ _ _ hLit
       exact extend_push_scalar p _ he _ _ _ _)
    | (cases h.symm
       rename (handleLiteralGo _ _ _ _ = _) => hLit
       have he := handleLiteralGo_events _ _ _ _ _ _ hLit
       exact extend_push_scalar p _ he _ _ _ _)
    | cases h

/-- `handle_double_quoted_flow_scalar` appends exactly one scalar event. -/
theorem handleDoubleQuotedFlowScalar_extend (p : YamlParser)
    (tag : Option (List Char)) (p' : YamlParser)
    (h : handleDoubleQuotedFlowScalar p tag = .ok p') : eventsExtend p p' := by
  simp only [handleDoubleQuotedFlowScalar] at h
  repeat' split at h
  all_goals first
    | (cases h; exact ⟨[_], rfl, innerEvents_scalar _ _ _ _⟩)
    | (cases h.symm; exact ⟨[_], rfl, innerEvents_scalar _ _ _ _⟩)
    | cases h

set_option maxHeartbeats 1000000 in
/-- `handle_scalar` appends only a balanced, stream-free run. -/
theorem handleScalar_extend (p : YamlParser) (a b : Nat)
    (tag : Option (List Char)) (p' : YamlParser)
    (h : handleScalar p a b tag = .ok p') : eventsExtend p p' := by
  simp only [handleScalar] at h
  repeat' split at h
  all_goals first
    | (cases h; exact eventsExtend_refl _)
    | (cases h.symm; exact eventsExtend_refl _)
    | (have hh := handleLiteralBlockScalar_extend _ _ _ _ _ h; exact hh)
    | (have hh := handleLiteralBlockScalar_extend _ _ _ _ _ h.symm; exact hh)
    | (have hh := handleDoubleQuotedFlowScalar_extend _ _ _ h; exact hh)
    | (have hh := handleDoubleQuotedFlowScalar_extend _ _ _ h.symm; exact hh)
    | (have hh := handlePlainScalar_extend _ _ _ _ _ h; exact hh)
    | (have hh := handlePlainScalar_extend _ _ _ _ _ h.symm; exact hh)
    | cases h


/-- Pushing a key-state marker never touches the event list. -/
theorem ite_push_state_events (c : Prop) [Decidable c] (q : YamlParser)
    (s : YamlState) :
    (if c then q.push_state s else q).events = q.events := by
  split <;> rfl

set_option maxHeartbeats 2000000 in
/-- Every in-document handler appends only a balanced, stream-free run of
events. -/
theorem parserInner : ∀ fuel : Nat,
    (∀ p ic p', seqLoop fuel p ic = .ok p' → eventsExtend p p')
    ∧ (∀ p ic tag p', handleBlockSeq fuel p ic tag = .ok p' →
        eventsExtend p p')
    ∧ (∀ p a b c d e pp p', mapAfterKey fuel p a b c d e pp = .ok p' →
        eventsExtend p p')
    ∧ (∀ p a b c d e p', mapLoop fuel p a b c d e = .ok p' →
        eventsExtend p p')
    ∧ (∀ p a b tag p', handleBlockMap fuel p a b tag = .ok p' →
        eventsExtend p p')
    ∧ (∀ p a b tag p', handleNode fuel p a b tag = .ok p' →
        eventsExtend p p') := by
  intro fuel
  induction fuel with
  | zero =>
    refine ⟨fun p ic p' h => ?_, fun p ic tag p' h => ?_,
      fun p a b c d e pp p' h => ?_, fun p a b c d e p' h => ?_,
      fun p a b tag p' h => ?_, fun p a b tag p' h => ?_⟩
    · simp [seqLoop] at h
    · simp [handleBlockSeq] at h
    · simp [mapAfterKey] at h
    · simp [mapLoop] at h
    · simp [handleBlockMap] at h
    · simp [handleNode] at h
  | succ fuel ih =>
    obtain ⟨ihSL, ihBS, ihAK, ihML, ihBM, ihND⟩ := ih
    refine ⟨fun p ic p' h => ?_, fun p ic tag p' h => ?_,
      fun p a b c d e pp p' h => ?_, fun p a b c d e p' h => ?_,
      fun p a b tag p' h => ?_, fun p a b tag p' h => ?_⟩
    · -- seqLoop
      simp only [seqLoop] at h
      repeat' split at h
      · cases h
        exact eventsExtend_refl p
      · exact ihSL _ _ _ h
      · cases h
        exact eventsExtend_refl p
      · cases h
      · rename (handleNode _ _ _ _ _ = Except.ok _) => hN
        have h1 := ihND _ _ _ _ _ hN
        have h2 := ihSL _ _ _ h
        exact eventsExtend_trans h1 h2
      · have h2 := ihSL _ _ _ h
        exact eventsExtend_trans (extend_push_scalar _ _ rfl _ _ _ _) h2
      · have hh := ihSL _ _ _ h
        exact hh
      · cases h
      · rename (handleNode _ _ _ _ _ = Except.ok _) => hN
        have h1 := ihND _ _ _ _ _ hN
        have h2 := ihSL _ _ _ h
        exact eventsExtend_trans h1 h2
      · have hh := ihSL _ _ _ h
        exact hh
      · cases h
    · -- handleBlockSeq
      simp only [handleBlockSeq] at h
      split at h
      · cases h
      · rename_i p2 hS
        obtain ⟨Δ, hΔ, hin⟩ := ihSL _ _ _ hS
        cases h
        exact ⟨.SequenceStart tag p.scanner.next_pos
            :: (Δ ++ [.SequenceEnd p2.scanner.done_pos]),
          by
            rw [pop_state_events, push_event_events, hΔ]
            simp [push_event_events, push_state_events, List.append_assoc],
          innerEvents_seqWrap hin _ _ _⟩
    · -- mapAfterKey
      simp only [mapAfterKey] at h
      repeat' split at h
      · cases h
      · cases h
      · rename (handleNode _ _ _ _ _ = Except.ok _) => hN
        have h1 := ihND _ _ _ _ _ hN
        have h2 := ihML _ _ _ _ _ _ _ h
        exact eventsExtend_trans h1 h2
    · -- mapLoop
      simp only [mapLoop] at h
      repeat' split at h
      · cases h
        exact eventsExtend_refl p
      · have hh := ihML _ _ _ _ _ _ _ h
        exact hh
      · cases h
        exact eventsExtend_refl p
      · cases h
      · cases h
      · rename (handleNode _ _ _ _ _ = Except.ok _) => hN
        have h1 := ihND _ _ _ _ _ hN
        have h2 := ihML _ _ _ _ _ _ _ h
        exact eventsExtend_trans h1 h2
      · cases h
      · rename (handlePlainScalar _ _ _ _ = Except.ok _) => hP
        obtain ⟨Δ1, he1, hi1⟩ := handlePlainScalar_extend _ _ _ _ _ hP
        simp only [ite_push_state_events] at he1
        have h2 := ihML _ _ _ _ _ _ _ h
        exact eventsExtend_trans ⟨Δ1, he1, hi1⟩ h2
      · cases h
      · rename (handlePlainScalar _ _ _ _ = Except.ok _) => hP
        obtain ⟨Δ1, he1, hi1⟩ := handlePlainScalar_extend _ _ _ _ _ hP
        simp only [ite_push_state_events] at he1
        have h2 := ihAK _ _ _ _ _ _ _ _ h
        exact eventsExtend_trans ⟨Δ1, he1, hi1⟩ h2
      · rename (handlePlainScalar _ _ _ _ = Except.ok _) => hP
        obtain ⟨Δ1, he1, hi1⟩ := handlePlainScalar_extend _ _ _ _ _ hP
        simp only [ite_push_state_events] at he1
        cases h
        exact eventsExtend_trans ⟨Δ1, he1, hi1⟩
          (extend_push_scalar _ _ rfl _ _ _ _)
      · rename (handlePlainScalar _ _ _ _ = Except.ok _) => hP
        obtain ⟨Δ1, he1, hi1⟩ := handlePlainScalar_extend _ _ _ _ _ hP
        simp only [ite_push_state_events] at he1
        have h2 := ihAK _ _ _ _ _ _ _ _ h
        exact eventsExtend_trans ⟨Δ1, he1, hi1⟩ h2
      · rename (handlePlainScalar _ _ _ _ = Except.ok _) => hP
        obtain ⟨Δ1, he1, hi1⟩ := handlePlainScalar_extend _ _ _ _ _ hP
        simp only [ite_push_state_events] at he1
        have h2 := ihAK _ _ _ _ _ _ _ _ h
        exact eventsExtend_trans ⟨Δ1, he1, hi1⟩ h2
      · cases h
      · cases h
        exact eventsExtend_refl p
      · cases h
      · cases h
      · rename (handleNode _ _ _ _ _ = Except.ok _) => hN
        have h1 := ihND _ _ _ _ _ hN
        have h2 := ihML _ _ _ _ _ _ _ h
        exact eventsExtend_trans h1 h2
      · cases h
      · rename (handlePlainScalar _ _ _ _ = Except.ok _) => hP
        obtain ⟨Δ1, he1, hi1⟩ := handlePlainScalar_extend _ _ _ _ _ hP
        simp only [ite_push_state_events] at he1
        have h2 := ihML _ _ _ _ _ _ _ h
        exact eventsExtend_trans ⟨Δ1, he1, hi1⟩ h2
      · cases h
      · rename (handlePlainScalar _ _ _ _ = Except.ok _) => hP
        obtain ⟨Δ1, he1, hi1⟩ := handlePlainScalar_extend _ _ _ _ _ hP
        simp only [ite_push_state_events] at he1
        have h2 := ihAK _ _ _ _ _ _ _ _ h
        exact eventsExtend_trans ⟨Δ1, he1, hi1⟩ h2
      · rename (handlePlainScalar _ _ _ _ = Except.ok _) => hP
        obtain ⟨Δ1, he1, hi1⟩ := handlePlainScalar_extend _ _ _ _ _ hP
        simp only [ite_push_state_events] at he1
        cases h
        exact eventsExtend_trans ⟨Δ1, he1, hi1⟩
          (extend_push_scalar _ _ rfl _ _ _ _)
      · rename (handlePlainScalar _ _ _ _ = Except.ok _) => hP
        obtain ⟨Δ1, he1, hi1⟩ := handlePlainScalar_extend _ _ _ _ _ hP
        simp only [ite_push_state_events] at he1
        have h2 := ihAK _ _ _ _ _ _ _ _ h
        exact eventsExtend_trans ⟨Δ1, he1, hi1⟩ h2
      · rename (handlePlainScalar _ _ _ _ = Except.ok _) => hP
        obtain ⟨Δ1, he1, hi1⟩ := handlePlainScalar_extend _ _ _ _ _ hP
        simp only [ite_push_state_events] at he1
        have h2 := ihAK _ _ _ _ _ _ _ _ h
        exact eventsExtend_trans ⟨Δ1, he1, hi1⟩ h2
      · cases h
    · -- handleBlockMap
      simp only [handleBlockMap] at h
      split at h
      · cases h
      · rename_i p2 hS
        obtain ⟨Δ, hΔ, hin⟩ := ihML _ _ _ _ _ _ _ hS
        cases h
        exact ⟨.MapStart tag p.scanner.next_pos
            :: (Δ ++ [.MapEnd p2.scanner.done_pos]),
          by
            rw [pop_state_events, push_event_events, hΔ]
            simp [push_event_events, push_state_events, List.append_assoc],
          innerEvents_mapWrap hin _ _ _⟩
    · -- handleNode
      simp only [handleNode] at h
      repeat' split at h
      · cases h
        exact ⟨[], by simp, innerEvents_nil⟩
      · cases h
        exact ⟨[], by simp, innerEvents_nil⟩
      · cases h
      · have hh := ihBS _ _ _ _ h
        exact hh
      · have hh := handleScalar_extend _ _ _ _ _ h
        exact hh
      · have hh := ihBM _ _ _ _ _ h
        exact hh
      · have hh := ihBM _ _ _ _ _ h
        exact hh
      · simp [handleFlowSeq] at h
      · simp [handleFlowMap] at h
      · have hh := ihND _ _ _ _ _ h
        exact hh
      · cases h
      · have hh := handleScalar_extend _ _ _ _ _ h
        exact hh

set_option maxHeartbeats 1000000 in
/-- The document loop of `handle_stream` appends only document bodies and
document markers: a balanced run with no stream delimiters. -/
theorem streamLoop_extend : ∀ fuel p p',
    streamLoop fuel p = .ok p' → eventsExtend p p'
  | 0, p, p', h => by simp [streamLoop] at h
  | fuel + 1, p, p', h => by
    simp only [streamLoop] at h
    repeat' split at h
    · cases h
      exact eventsExtend_refl p
    · have hh := streamLoop_extend fuel _ _ h
      exact hh
    · cases h
    · rename (handleNode _ _ _ _ _ = Except.ok _) => hN
      have h1 := (parserInner fuel).2.2.2.2.2 _ _ _ _ _ hN
      have h2 := streamLoop_extend fuel _ _ h
      exact eventsExtend_trans
        (eventsExtend_trans
          ⟨[.DocumentStart true p.scanner.next_pos], rfl,
            innerEvents_docStart _ _⟩ h1) h2
    · cases h
    · rename (handleNode _ _ _ _ _ = Except.ok _) => hN
      have h1 := (parserInner fuel).2.2.2.2.2 _ _ _ _ _ hN
      have h2 := streamLoop_extend fuel _ _ h
      exact eventsExtend_trans
        (eventsExtend_trans
          ⟨[.DocumentStart true p.scanner.next_pos], rfl,
            innerEvents_docStart _ _⟩ h1) h2
    · have h2 := streamLoop_extend fuel _ _ h
      exact eventsExtend_trans
        ⟨[.DocumentEnd true p.scanner.next_pos], rfl,
          innerEvents_docEnd _ _⟩ h2
    · cases h
    · rename (handleNode _ _ _ _ _ = Except.ok _) => hN
      have h1 := (parserInner fuel).2.2.2.2.2 _ _ _ _ _ hN
      have h2 := streamLoop_extend fuel _ _ h
      exact eventsExtend_trans
        (eventsExtend_trans
          ⟨[.DocumentStart false p.scanner.next_pos], rfl,
            innerEvents_docStart _ _⟩ h1) h2

/-- What one `handle_stream` run appends: a balanced run opening with
`StreamStart` and closing with `StreamEnd`. -/
def streamChain (l : List YamlEvent) : Prop :=
  balancedEvents l ∧ l.head? = some .StreamStart
    ∧ l.getLast? = some .StreamEnd

theorem streamChain_wrap (M F : List YamlEvent) (hM : innerEvents M)
    (hF : innerEvents F) :
    streamChain (.StreamStart :: (M ++ (F ++ [.StreamEnd]))) := by
  refine ⟨⟨?_, ?_⟩, rfl, ?_⟩
  · simp only [List.countP_cons, List.countP_append, hM.1.1, hF.1.1]
    rfl
  · simp only [List.countP_cons, List.countP_append, hM.1.2, hF.1.2]
    rfl
  · rw [show YamlEvent.StreamStart :: (M ++ (F ++ [.StreamEnd]))
        = (YamlEvent.StreamStart :: (M ++ F)) ++ [.StreamEnd] from by simp,
      List.getLast?_concat]

theorem streamChain_append (a b : List YamlEvent) (ha : streamChain a)
    (hb : streamChain b) : streamChain (a ++ b) := by
  obtain ⟨⟨ha1, ha2⟩, hah, hal⟩ := ha
  obtain ⟨⟨hb1, hb2⟩, hbh, hbl⟩ := hb
  refine ⟨⟨?_, ?_⟩, ?_, ?_⟩
  · simp only [List.countP_append, ha1, hb1]
  · simp only [List.countP_append, ha2, hb2]
  · cases a with
    | nil => cases hah
    | cons x t => simpa using hah
  · cases b with
    | nil => cases hbl
    | cons y u =>
      rw [List.getLast?_append, hbl]
      rfl

/-- Assembling one `handle_stream` run: `StreamStart`, the document loop
delta, the fixups, `StreamEnd`. -/
theorem handleStream_finish (base p2 q : YamlParser) (M F : List YamlEvent)
    (hM : p2.events = (base.push_event .StreamStart).events ++ M)
    (hMi : innerEvents M)
    (hq : q.events = p2.events ++ F) (hF : innerEvents F) :
    (q.push_event .StreamEnd).events
      = base.events ++ (.StreamStart :: (M ++ (F ++ [.StreamEnd])))
    ∧ streamChain (.StreamStart :: (M ++ (F ++ [.StreamEnd]))) := by
  constructor
  · rw [push_event_events, hq, hM, push_event_events]
    simp [List.append_assoc]
  · exact streamChain_wrap M F hMi hF

theorem handleStream_chain_succ (fuel : Nat) (p p' : YamlParser)
    (h : handleStream (fuel + 1) p = .ok p') :
    ∃ Δ, p'.events = p.events ++ Δ ∧ streamChain Δ := by
  simp only [handleStream] at h
  split at h
  · cases h
  · rename_i p2 hS
    obtain ⟨M, hM, hMi⟩ := streamLoop_extend fuel _ _ hS
    repeat' split at h
    · cases h
      have hfin := handleStream_finish p p2
        ((p2.push_event (.DocumentStart false RmsdPosition.EOF)).push_event
          (.DocumentEnd false p2.scanner.done_pos)) M
        [.DocumentStart false RmsdPosition.EOF,
          .DocumentEnd false p2.scanner.done_pos] hM hMi
        (by simp [push_event_events])
        (innerEvents_append (innerEvents_docStart _ _)
          (innerEvents_docEnd _ _))
      exact ⟨_, hfin.1, hfin.2⟩
    · cases h
      have hfin := handleStream_finish p p2
        (p2.push_event (.DocumentStart false RmsdPosition.EOF)) M
        [.DocumentStart false RmsdPosition.EOF] hM hMi
        (by simp [push_event_events])
        (innerEvents_docStart _ _)
      exact ⟨_, hfin.1, hfin.2⟩
    · cases h
      have hfin := handleStream_finish p p2
        (p2.push_event (.DocumentEnd false p2.scanner.done_pos)) M
        [.DocumentEnd false p2.scanner.done_pos] hM hMi
        (by simp [push_event_events])
        (innerEvents_docEnd _ _)
      exact ⟨_, hfin.1, hfin.2⟩
    · cases h
      have hfin := handleStream_finish p p2 p2 M [] hM hMi
        (List.append_nil _).symm innerEvents_nil
      exact ⟨_, hfin.1, hfin.2⟩

/-- One `handle_stream` run appends a stream chain to the event list. -/
theorem handleStream_chain (fuel : Nat) (p p' : YamlParser)
    (h : handleStream fuel p = .ok p') :
    ∃ Δ, p'.events = p.events ++ Δ ∧ streamChain Δ := by
  cases fuel with
  | zero => simp [handleStream] at h
  | succ fuel => exact handleStream_chain_succ fuel p p' h

/-- The outer parse loop returns either the events it was given (empty
scanner) or those events extended by one stream chain per `handle_stream`
pass. -/
theorem parseLoop_chain : ∀ fuel p evs, parseLoop fuel p = .ok evs →
    (evs = p.events ∧ p.scanner.is_empty = true)
    ∨ ∃ Δ, evs = p.events ++ Δ ∧ streamChain Δ
  | 0, p, evs, h => by simp [parseLoop] at h
  | fuel + 1, p, evs, h => by
    simp only [parseLoop] at h
    repeat' split at h
    · cases h
      exact Or.inl ⟨rfl, by assumption⟩
    · cases h
    · cases h
    · rename (handleStream _ _ = Except.ok _) => hH
      obtain ⟨D, hD, hDc⟩ := handleStream_chain fuel _ _ hH
      rcases parseLoop_chain fuel _ _ h with ⟨he, _⟩ | ⟨Δ2, he2, hc2⟩
      · right
        exact ⟨D, by rw [he, hD], hDc⟩
      · right
        exact ⟨D ++ Δ2, by rw [he2, hD, List.append_assoc],
          streamChain_append _ _ hDc hc2⟩

/-- Counterexample to C2 as stated: the empty input parses successfully to
an empty event list, which has no `StreamEnd` last event (and no
`StreamStart` either). -/
theorem c2_counterexample :
    parse_to_events 1 [] = .ok ([] : List YamlEvent)
    ∧ ([] : List YamlEvent).getLast? ≠ some YamlEvent.StreamEnd :=
  ⟨rfl, by decide⟩

/-- C2 (amended): whenever `parse_to_events` succeeds on a non-empty input,
the event list is well-balanced — equal `SequenceStart`/`SequenceEnd` and
`MapStart`/`MapEnd` counts, a `StreamStart` first and a `StreamEnd` last;
the empty input instead returns an empty event list with no stream
delimiters at all. -/
theorem c2_parse_events_balanced (fuel : Nat) (input : List Char)
    (evs : List YamlEvent) (h : parse_to_events fuel input = .ok evs) :
    (input = [] → evs = [])
    ∧ (input ≠ [] →
        evs.countP YamlEvent.isSeqStart = evs.countP YamlEvent.isSeqEnd
        ∧ evs.countP YamlEvent.isMapStart = evs.countP YamlEvent.isMapEnd
        ∧ evs.head? = some YamlEvent.StreamStart
        ∧ evs.getLast? = some YamlEvent.StreamEnd) := by
  have hres := parseLoop_chain fuel _ _ h
  constructor
  · intro he
    subst he
    cases fuel with
    | zero => simp [parse_to_events, parseLoop] at h
    | succ f =>
      simp [parse_to_events, parseLoop, YamlScanner.is_empty,
        YamlScanner.new] at h
      exact h
  · intro hne
    rcases hres with ⟨he1, hemp⟩ | ⟨Δ, he2, hch⟩
    · exfalso
      apply hne
      simpa [YamlScanner.new, YamlScanner.is_empty] using hemp
    · simp only [List.nil_append] at he2
      subst he2
      obtain ⟨⟨hb1, hb2⟩, hh, hl⟩ := hch
      exact ⟨hb1, hb2, hh, hl⟩

/-- Witness for C2 at the one-scalar input `a`. -/
theorem c2_parse_events_balanced_witness :
    ([.StreamStart, .DocumentStart false ⟨1, 1⟩,
        .Scalar none "a".toList ⟨1, 1⟩ ⟨1, 1⟩, .DocumentEnd false ⟨1, 1⟩,
        .StreamEnd] : List YamlEvent).countP YamlEvent.isSeqStart
      = ([.StreamStart, .DocumentStart false ⟨1, 1⟩,
        .Scalar none "a".toList ⟨1, 1⟩ ⟨1, 1⟩, .DocumentEnd false ⟨1, 1⟩,
        .StreamEnd] : List YamlEvent).countP YamlEvent.isSeqEnd
    ∧ ([.StreamStart, .DocumentStart false ⟨1, 1⟩,
        .Scalar none "a".toList ⟨1, 1⟩ ⟨1, 1⟩, .DocumentEnd false ⟨1, 1⟩,
        .StreamEnd] : List YamlEvent).countP YamlEvent.isMapStart
      = ([.StreamStart, .DocumentStart false ⟨1, 1⟩,
        .Scalar none "a".toList ⟨1, 1⟩ ⟨1, 1⟩, .DocumentEnd false ⟨1, 1⟩,
        .StreamEnd] : List YamlEvent).countP YamlEvent.isMapEnd
    ∧ ([.StreamStart, .DocumentStart false ⟨1, 1⟩,
        .Scalar none "a".toList ⟨1, 1⟩ ⟨1, 1⟩, .DocumentEnd false ⟨1, 1⟩,
        .StreamEnd] : List YamlEvent).head? = some YamlEvent.StreamStart
    ∧ ([.StreamStart, .DocumentStart false ⟨1, 1⟩,
        .Scalar none "a".toList ⟨1, 1⟩ ⟨1, 1⟩, .DocumentEnd false ⟨1, 1⟩,
        .StreamEnd] : List YamlEvent).getLast? = some YamlEvent.StreamEnd :=
  (c2_parse_events_balanced 20 "a".toList
    [.StreamStart, .DocumentStart false ⟨1, 1⟩,
      .Scalar none "a".toList ⟨1, 1⟩ ⟨1, 1⟩, .DocumentEnd false ⟨1, 1⟩,
      .StreamEnd] rfl).2 (by decide)
